import Mathlib

set_option maxHeartbeats 1000000

/-!
Shallow embedding of the QA cache core (`src/cache_manager.py`).

The store is SQLite with four tables (`queries`, `search_results`,
`web_contents`, `answers`); every table is append-only in the source
(`INSERT` / `INSERT OR IGNORE` only, no `UPDATE` / `DELETE`), so each table
is modeled as a Lean list of row structures in insertion (rowid) order, and
`AUTOINCREMENT` ids as `length + 1` at insertion time.  `DATETIME DEFAULT
CURRENT_TIMESTAMP` has second granularity; timestamps are modeled as a `Nat`
supplied to each write call (one call = one clock reading).

The structured search response (`brave_response_json`, a Python object built
from JSON) is modeled by the inductive `JValue`; the standard-library
functions `json.dumps` (default options: `ensure_ascii=True`, separators
`", "` and `": "`) and `json.loads` used by the source are modeled by
`jsonDumps` and `jsonLoads` below.  JSON numbers are modeled as integers
(floating point is outside this embedding), and object fields as an ordered
key/value list, which models a Python `dict` exactly when its keys are
duplicate-free (`JValue.wfKeys`).
-/

mutual

/-- A JSON-structured value as handled by Python's `json` module
(numbers restricted to integers, see the file comment). -/
inductive JValue : Type where
  | null : JValue
  | bool (b : Bool) : JValue
  | num (n : Int) : JValue
  | str (s : String) : JValue
  | arr (elems : JArray) : JValue
  | obj (fields : JObject) : JValue
  deriving DecidableEq

/-- A JSON array (Python list), as its own inductive so that mutual
structural recursion over values/arrays/objects is direct. -/
inductive JArray : Type where
  | nil : JArray
  | cons (hd : JValue) (tl : JArray) : JArray
  deriving DecidableEq

/-- A JSON object (Python dict): ordered key/value fields. -/
inductive JObject : Type where
  | nil : JObject
  | cons (key : String) (val : JValue) (tl : JObject) : JObject
  deriving DecidableEq

end

/-- Keys of a JSON object, in order. -/
def JObject.keys : JObject → List String
  | .nil => []
  | .cons k _ tl => k :: JObject.keys tl

/-- Duplicate-freedom check for a key list. -/
def nodupKeys : List String → Bool
  | [] => true
  | k :: rest => !(rest.contains k) && nodupKeys rest

mutual

/-- Every object in the value has duplicate-free keys: exactly the values
that arise from Python data (a `dict` cannot have duplicate keys). -/
def JValue.wfKeys : JValue → Bool
  | .null => true
  | .bool _ => true
  | .num _ => true
  | .str _ => true
  | .arr l => JArray.wfKeys l
  | .obj o => nodupKeys (JObject.keys o) && JObject.wfKeys o

/-- `JValue.wfKeys` on every element of an array. -/
def JArray.wfKeys : JArray → Bool
  | .nil => true
  | .cons v tl => JValue.wfKeys v && JArray.wfKeys tl

/-- `JValue.wfKeys` on every field value of an object. -/
def JObject.wfKeys : JObject → Bool
  | .nil => true
  | .cons _ v tl => JValue.wfKeys v && JObject.wfKeys tl

end

/-- The decimal digit character for `d < 10`. -/
def digitChar (d : Nat) : Char := Char.ofNat (48 + d)

/-- Decimal digits of `n`, least significant first (empty for `0`). -/
def natDigitsRev (n : Nat) : List Char :=
  if h : n = 0 then []
  else digitChar (n % 10) :: natDigitsRev (n / 10)
termination_by n
decreasing_by exact Nat.div_lt_self (Nat.pos_of_ne_zero h) (by omega)

/-- Decimal representation of a natural number (Python `str(n)` for `n ≥ 0`). -/
def natToChars (n : Nat) : List Char :=
  if n = 0 then ['0'] else (natDigitsRev n).reverse

/-- Decimal representation of an integer (Python `str(n)`). -/
def intToChars (n : Int) : List Char :=
  if n < 0 then '-' :: natToChars n.natAbs else natToChars n.toNat

/-- Lowercase hex digit character for `d < 16` (Python's `'%04x'`). -/
def hexDigitChar (d : Nat) : Char :=
  if d < 10 then Char.ofNat (48 + d) else Char.ofNat (87 + d)

/-- The six-character escape `\uXXXX` for a code unit `m < 0x10000`. -/
def hexEsc4 (m : Nat) : List Char :=
  ['\\', 'u', hexDigitChar (m / 4096), hexDigitChar (m / 256 % 16),
   hexDigitChar (m / 16 % 16), hexDigitChar (m % 16)]

/-- Python `json.dumps` escaping of one character (`ensure_ascii=True`):
quote and backslash get two-character escapes, the five classic control
characters get their short escapes, every other character outside printable
ASCII (`0x20`-`0x7e`) is `\u`-escaped, with a surrogate pair above `0xFFFF`. -/
def escChar (c : Char) : List Char :=
  if c = '"' then ['\\', '"']
  else if c = '\\' then ['\\', '\\']
  else if c.toNat = 8 then ['\\', 'b']
  else if c.toNat = 9 then ['\\', 't']
  else if c.toNat = 10 then ['\\', 'n']
  else if c.toNat = 12 then ['\\', 'f']
  else if c.toNat = 13 then ['\\', 'r']
  else if c.toNat < 32 ∨ 126 < c.toNat then
    if c.toNat < 65536 then hexEsc4 c.toNat
    else hexEsc4 (55296 + (c.toNat - 65536) / 1024) ++
         hexEsc4 (56320 + (c.toNat - 65536) % 1024)
  else [c]

/-- Escape a whole string body. -/
def escString (s : List Char) : List Char := (s.map escChar).flatten

/-- A JSON string literal: quote, escaped body, quote. -/
def printString (s : String) : List Char := '"' :: (escString s.data ++ ['"'])

mutual

/-- Serialization of a value, exactly as Python `json.dumps` with default
options renders it (item separator `", "`, key separator `": "`). -/
def printValue : JValue → List Char
  | .null => 'n' :: 'u' :: 'l' :: 'l' :: []
  | .bool true => 't' :: 'r' :: 'u' :: 'e' :: []
  | .bool false => 'f' :: 'a' :: 'l' :: 's' :: 'e' :: []
  | .num n => intToChars n
  | .str s => printString s
  | .arr l => '[' :: printArrayBody l
  | .obj o => '{' :: printObjectBody o

/-- Everything after the opening `[` of an array. -/
def printArrayBody : JArray → List Char
  | .nil => [']']
  | .cons v tl => printValue v ++ printArraySep tl

/-- Remaining array items, each preceded by `", "`, then the closing `]`. -/
def printArraySep : JArray → List Char
  | .nil => [']']
  | .cons v tl => ',' :: ' ' :: (printValue v ++ printArraySep tl)

/-- Everything after the opening `{` of an object. -/
def printObjectBody : JObject → List Char
  | .nil => ['}']
  | .cons k v tl => printString k ++ ':' :: ' ' :: (printValue v ++ printObjectSep tl)

/-- Remaining object fields, each preceded by `", "`, then the closing `}`. -/
def printObjectSep : JObject → List Char
  | .nil => ['}']
  | .cons k v tl =>
    ',' :: ' ' :: (printString k ++ ':' :: ' ' :: (printValue v ++ printObjectSep tl))

end

/-- Python `json.dumps` (defaults), restricted to the values of `JValue`. -/
def jsonDumps (v : JValue) : String := String.mk (printValue v)

/-- Value of a hex digit character, accepting both cases like Python. -/
def hexVal? (c : Char) : Option Nat :=
  if 48 ≤ c.toNat ∧ c.toNat ≤ 57 then some (c.toNat - 48)
  else if 97 ≤ c.toNat ∧ c.toNat ≤ 102 then some (c.toNat - 87)
  else if 65 ≤ c.toNat ∧ c.toNat ≤ 70 then some (c.toNat - 55)
  else none

/-! Parsing of a JSON string body (after the opening quote) up to the
closing quote, undoing `escChar`: `parseStringBody` is mutual with the
escape-sequence readers.  A lone low surrogate escape is rejected (such a
string is not representable as a sequence of unicode scalar values and is
never produced by `jsonDumps`). -/
mutual

/-- String body: plain characters until the closing quote; backslash starts
an escape. -/
def parseStringBody : List Char → Option (List Char × List Char)
  | [] => none
  | c :: rest =>
    if c = '"' then some ([], rest)
    else if c = '\\' then parseEscape rest
    else (parseStringBody rest).map (fun p => (c :: p.1, p.2))

/-- One escape sequence after the backslash. -/
def parseEscape : List Char → Option (List Char × List Char)
  | [] => none
  | e :: rest2 =>
    if e = '"' then (parseStringBody rest2).map (fun p => ('"' :: p.1, p.2))
    else if e = '\\' then (parseStringBody rest2).map (fun p => ('\\' :: p.1, p.2))
    else if e = '/' then (parseStringBody rest2).map (fun p => ('/' :: p.1, p.2))
    else if e = 'b' then (parseStringBody rest2).map (fun p => (Char.ofNat 8 :: p.1, p.2))
    else if e = 't' then (parseStringBody rest2).map (fun p => (Char.ofNat 9 :: p.1, p.2))
    else if e = 'n' then (parseStringBody rest2).map (fun p => (Char.ofNat 10 :: p.1, p.2))
    else if e = 'f' then (parseStringBody rest2).map (fun p => (Char.ofNat 12 :: p.1, p.2))
    else if e = 'r' then (parseStringBody rest2).map (fun p => (Char.ofNat 13 :: p.1, p.2))
    else if e = 'u' then parseU rest2
    else none

/-- A `\uXXXX` escape: four hex digits; a high surrogate must be followed
by a low surrogate escape. -/
def parseU : List Char → Option (List Char × List Char)
  | h1 :: h2 :: h3 :: h4 :: rest3 =>
    match hexVal? h1, hexVal? h2, hexVal? h3, hexVal? h4 with
    | some d1, some d2, some d3, some d4 =>
      let m := ((d1 * 16 + d2) * 16 + d3) * 16 + d4
      if 55296 ≤ m ∧ m ≤ 56319 then parseLowSurrogate m rest3
      else if 56320 ≤ m ∧ m ≤ 57343 then none
      else (parseStringBody rest3).map (fun p => (Char.ofNat m :: p.1, p.2))
    | _, _, _, _ => none
  | _ => none

/-- The low half of a surrogate pair, combined with the high half `hi`. -/
def parseLowSurrogate (hi : Nat) : List Char → Option (List Char × List Char)
  | b :: u :: g1 :: g2 :: g3 :: g4 :: rest4 =>
    if b = '\\' ∧ u = 'u' then
      match hexVal? g1, hexVal? g2, hexVal? g3, hexVal? g4 with
      | some f1, some f2, some f3, some f4 =>
        let lo := ((f1 * 16 + f2) * 16 + f3) * 16 + f4
        if 56320 ≤ lo ∧ lo ≤ 57343 then
          (parseStringBody rest4).map
            (fun p => (Char.ofNat (65536 + (hi - 55296) * 1024 + (lo - 56320)) :: p.1, p.2))
        else none
      | _, _, _, _ => none
    else none
  | _ => none

end

/-- Decimal digit test. -/
def isDigitChar (c : Char) : Bool := 48 ≤ c.toNat && c.toNat ≤ 57

/-- Consume a maximal run of decimal digits, extending `acc`. -/
def parseDigitsAux : List Char → Nat → Nat × List Char
  | [], acc => (acc, [])
  | c :: rest, acc =>
    if isDigitChar c then parseDigitsAux rest (acc * 10 + (c.toNat - 48))
    else (acc, c :: rest)

/-- Parse an (integer) JSON number: optional minus sign, then digits. -/
def parseNumber : List Char → Option (Int × List Char)
  | [] => none
  | c :: rest =>
    if c = '-' then
      match rest with
      | [] => none
      | c2 :: rest2 =>
        if isDigitChar c2 then
          let p := parseDigitsAux rest2 (c2.toNat - 48)
          some (-(p.1 : Int), p.2)
        else none
    else if isDigitChar c then
      let p := parseDigitsAux rest (c.toNat - 48)
      some ((p.1 : Int), p.2)
    else none

/-- The tail `ull` of the literal `null`. -/
def parseNullTail : List Char → Option (JValue × List Char)
  | 'u' :: 'l' :: 'l' :: r => some (.null, r)
  | _ => none

/-- The tail `rue` of the literal `true`. -/
def parseTrueTail : List Char → Option (JValue × List Char)
  | 'r' :: 'u' :: 'e' :: r => some (.bool true, r)
  | _ => none

/-- The tail `alse` of the literal `false`. -/
def parseFalseTail : List Char → Option (JValue × List Char)
  | 'a' :: 'l' :: 's' :: 'e' :: r => some (.bool false, r)
  | _ => none

mutual

/-- Fuel-indexed recursive-descent parser for the JSON grammar in the exact
concrete form `jsonDumps` emits; models `json.loads` on the store's records
(it rejects everything that is not such a rendering). -/
def parseValue : Nat → List Char → Option (JValue × List Char)
  | 0, _ => none
  | fuel + 1, input =>
    match input with
    | [] => none
    | c :: rest =>
      if c = 'n' then parseNullTail rest
      else if c = 't' then parseTrueTail rest
      else if c = 'f' then parseFalseTail rest
      else if c = '"' then (parseStringBody rest).map (fun p => (.str (String.mk p.1), p.2))
      else if c = '[' then (parseArrayBody fuel rest).map (fun p => (.arr p.1, p.2))
      else if c = '{' then (parseObjectBody fuel rest).map (fun p => (.obj p.1, p.2))
      else (parseNumber (c :: rest)).map (fun p => (.num p.1, p.2))

/-- Array items after the opening `[`. -/
def parseArrayBody : Nat → List Char → Option (JArray × List Char)
  | 0, _ => none
  | fuel + 1, input =>
    match input with
    | [] => none
    | c :: rest =>
      if c = ']' then some (.nil, rest)
      else
        match parseValue fuel (c :: rest) with
        | none => none
        | some (v, r1) =>
          match parseArraySep fuel r1 with
          | none => none
          | some (tl, r2) => some (.cons v tl, r2)

/-- Array items after one complete item: either `]` or `", "` and more. -/
def parseArraySep : Nat → List Char → Option (JArray × List Char)
  | 0, _ => none
  | fuel + 1, input =>
    match input with
    | ']' :: rest => some (.nil, rest)
    | ',' :: ' ' :: rest =>
      match parseValue fuel rest with
      | none => none
      | some (v, r1) =>
        match parseArraySep fuel r1 with
        | none => none
        | some (tl, r2) => some (.cons v tl, r2)
    | _ => none

/-- Object fields after the opening `{`. -/
def parseObjectBody : Nat → List Char → Option (JObject × List Char)
  | 0, _ => none
  | fuel + 1, input =>
    match input with
    | '}' :: rest => some (.nil, rest)
    | '"' :: rest =>
      match parseStringBody rest with
      | none => none
      | some (k, r1) =>
        match r1 with
        | ':' :: ' ' :: r2 =>
          match parseValue fuel r2 with
          | none => none
          | some (v, r3) =>
            match parseObjectSep fuel r3 with
            | none => none
            | some (tl, r4) => some (.cons (String.mk k) v tl, r4)
        | _ => none
    | _ => none

/-- Object fields after one complete field: either `}` or `", "` and more. -/
def parseObjectSep : Nat → List Char → Option (JObject × List Char)
  | 0, _ => none
  | fuel + 1, input =>
    match input with
    | '}' :: rest => some (.nil, rest)
    | ',' :: ' ' :: '"' :: rest =>
      match parseStringBody rest with
      | none => none
      | some (k, r1) =>
        match r1 with
        | ':' :: ' ' :: r2 =>
          match parseValue fuel r2 with
          | none => none
          | some (v, r3) =>
            match parseObjectSep fuel r3 with
            | none => none
            | some (tl, r4) => some (.cons (String.mk k) v tl, r4)
        | _ => none
    | _ => none

end

mutual

/-- Parsing fuel sufficient for a value: one unit per grammar-level descent. -/
def jsizeV : JValue → Nat
  | .null => 1
  | .bool _ => 1
  | .num _ => 1
  | .str _ => 1
  | .arr l => 1 + jsizeA l
  | .obj o => 1 + jsizeO o

/-- Fuel sufficient for an array body. -/
def jsizeA : JArray → Nat
  | .nil => 1
  | .cons v tl => 1 + max (jsizeV v) (jsizeA tl)

/-- Fuel sufficient for an object body. -/
def jsizeO : JObject → Nat
  | .nil => 1
  | .cons _ v tl => 1 + max (jsizeV v) (jsizeO tl)

end

/-- Python `json.loads`, as used on `search_results.brave_response_json`:
succeeds exactly when the whole text is one serialized value. -/
def jsonLoads (s : String) : Option JValue :=
  match parseValue (s.data.length + 1) s.data with
  | some (v, []) => some v
  | _ => none

/-- A row of the `queries` table:
`id INTEGER PRIMARY KEY AUTOINCREMENT, question TEXT UNIQUE NOT NULL,
timestamp DATETIME DEFAULT CURRENT_TIMESTAMP`. -/
structure QueryRow : Type where
  id : Nat
  question : String
  timestamp : Nat
  deriving DecidableEq

/-- A row of the `search_results` table:
`id INTEGER PRIMARY KEY AUTOINCREMENT, query_id INTEGER NOT NULL,
brave_response_json TEXT NOT NULL`. -/
structure SearchResultRow : Type where
  id : Nat
  query_id : Nat
  brave_response_json : String
  deriving DecidableEq

/-- A row of the `web_contents` table:
`id INTEGER PRIMARY KEY AUTOINCREMENT, url TEXT UNIQUE NOT NULL,
content TEXT NOT NULL, timestamp DATETIME DEFAULT CURRENT_TIMESTAMP`. -/
structure WebContentRow : Type where
  id : Nat
  url : String
  content : String
  timestamp : Nat
  deriving DecidableEq

/-- A row of the `answers` table:
`id INTEGER PRIMARY KEY AUTOINCREMENT, query_id INTEGER NOT NULL,
answer_text TEXT NOT NULL, source_url TEXT,
timestamp DATETIME DEFAULT CURRENT_TIMESTAMP` (`source_url` is nullable). -/
structure AnswerRow : Type where
  id : Nat
  query_id : Nat
  answer_text : String
  source_url : Option String
  timestamp : Nat
  deriving DecidableEq

/-- The whole SQLite database, each table as its rows in rowid order. -/
structure Store : Type where
  queries : List QueryRow
  search_results : List SearchResultRow
  web_contents : List WebContentRow
  answers : List AnswerRow
  deriving DecidableEq

/-- The store right after `_initialize_db` on a fresh file: four empty
tables. -/
def Store.init : Store := ⟨[], [], [], []⟩

/-- `INSERT OR IGNORE INTO queries (question) VALUES (?)` at clock `now`:
appends a fresh row unless the unique `question` is already present. -/
def insertOrIgnoreQuery (st : Store) (question : String) (now : Nat) : Store :=
  if st.queries.any (fun r => r.question == question) then st
  else { st with queries := st.queries ++ [⟨st.queries.length + 1, question, now⟩] }

/-- `SELECT id FROM queries WHERE question = ?` followed by `fetchone`:
the first matching row's id. -/
def selectQueryId (st : Store) (question : String) : Option Nat :=
  (st.queries.find? (fun r => r.question == question)).map (fun r => r.id)

/-- `INSERT INTO search_results (query_id, brave_response_json) VALUES (?, ?)`. -/
def insertSearchResult (st : Store) (query_id : Nat) (json : String) : Store :=
  { st with search_results :=
      st.search_results ++ [⟨st.search_results.length + 1, query_id, json⟩] }

/-- `INSERT OR IGNORE INTO web_contents (url, content) VALUES (?, ?)` at
clock `now`: a no-op when the unique `url` is already present. -/
def insertOrIgnoreWebContent (st : Store) (url content : String) (now : Nat) : Store :=
  if st.web_contents.any (fun r => r.url == url) then st
  else { st with web_contents :=
      st.web_contents ++ [⟨st.web_contents.length + 1, url, content, now⟩] }

/-- `INSERT INTO answers (query_id, answer_text, source_url) VALUES (?, ?, ?)`
at clock `now`. -/
def insertAnswer (st : Store) (query_id : Nat) (answer_text : String)
    (source_url : Option String) (now : Nat) : Store :=
  { st with answers :=
      st.answers ++ [⟨st.answers.length + 1, query_id, answer_text, source_url, now⟩] }

/-- The `for url, content in web_contents_data` loop of `cache_qa_data`,
with sqlite-error injection: `failAt = some k` makes the SQL statement with
running index `k` raise `sqlite3.Error`; `i` is the index of the first
statement of the loop.  `none` means the loop was aborted by such an error. -/
def insertWebContentsLoop (st : Store) (pairs : List (String × String)) (now : Nat)
    (failAt : Option Nat) (i : Nat) : Option Store :=
  match pairs with
  | [] => some st
  | (url, content) :: rest =>
    if failAt = some i then none
    else insertWebContentsLoop (insertOrIgnoreWebContent st url content now) rest now failAt (i + 1)

/-- `CacheManager.cache_qa_data`.  Statements run in a single implicit
transaction; `conn.commit()` is the final statement.  `failAt = some k`
injects a `sqlite3.Error` at the statement with running index `k`
(0 = queries insert, 1 = id select, 2 = search_results insert,
3..2+n = the n web_contents inserts, 3+n = answers insert, 4+n = commit);
the handler then runs `conn.rollback()`, so the store reverts to its
pre-call value.  The Python function has no `return` statement: it returns
`None` on the success path and on the error path alike, which the second
component `Unit` of the result models.  The unreachable branch where
`fetchone()` finds no id (the row was just inserted or already present)
also leaves the transaction uncommitted, hence the pre-call store. -/
def cache_qa_data (st : Store) (question : String) (brave_response_json : JValue)
    (web_contents_data : List (String × String)) (answer_text : String)
    (source_url : Option String) (now : Nat) (failAt : Option Nat) : Store × Unit :=
  if failAt = some 0 then (st, ()) else
  let s1 := insertOrIgnoreQuery st question now
  if failAt = some 1 then (st, ()) else
  match selectQueryId s1 question with
  | none => (st, ())
  | some query_id =>
    if failAt = some 2 then (st, ()) else
    let s2 := insertSearchResult s1 query_id (jsonDumps brave_response_json)
    match insertWebContentsLoop s2 web_contents_data now failAt 3 with
    | none => (st, ())
    | some s3 =>
      if failAt = some (3 + web_contents_data.length) then (st, ()) else
      let s4 := insertAnswer s3 query_id answer_text source_url now
      if failAt = some (4 + web_contents_data.length) then (st, ()) else
      (s4, ())

/-- The committed state of a fully successful `cache_qa_data` call (the
`failAt = none` path), as a plain composition of the four write steps. -/
def commitCycle (st : Store) (question : String) (brave_response_json : JValue)
    (web_contents_data : List (String × String)) (answer_text : String)
    (source_url : Option String) (now : Nat) : Store :=
  let s1 := insertOrIgnoreQuery st question now
  let qid := (selectQueryId s1 question).getD 0
  let s2 := insertSearchResult s1 qid (jsonDumps brave_response_json)
  let s3 := web_contents_data.foldl (fun acc p => insertOrIgnoreWebContent acc p.1 p.2 now) s2
  insertAnswer s3 qid answer_text source_url now

/-- The join `answers a JOIN queries q ON a.query_id = q.id WHERE
q.question = ?`: matching answer rows, in `answers` rowid order. -/
def joinedAnswers (st : Store) (question : String) : List AnswerRow :=
  st.answers.filter (fun a => st.queries.any (fun q => a.query_id == q.id && q.question == question))

/-- `ORDER BY a.timestamp DESC LIMIT 1` as SQLite executes it: one pass in
scan order keeping the current best, replaced only on a strictly larger
timestamp — so among rows tied at the maximal timestamp the first-scanned
(earliest-inserted) row is returned. -/
def pickLatestFirst (l : List AnswerRow) : Option AnswerRow :=
  match l with
  | [] => none
  | a :: rest => some (rest.foldl (fun best r => if best.timestamp < r.timestamp then r else best) a)

/-- `CacheManager.get_cached_answer`: the joined row selected by
`ORDER BY a.timestamp DESC LIMIT 1`, projected to
`(answer_text, source_url)`; `none` models Python `None` (no row). -/
def get_cached_answer (st : Store) (question : String) : Option (String × Option String) :=
  (pickLatestFirst (joinedAnswers st question)).map (fun a => (a.answer_text, a.source_url))

/-- The join `search_results sr JOIN queries q ON sr.query_id = q.id WHERE
q.question = ?`, in `search_results` rowid order. -/
def joinedSearchResults (st : Store) (question : String) : List SearchResultRow :=
  st.search_results.filter
    (fun sr => st.queries.any (fun q => sr.query_id == q.id && q.question == question))

/-- `ORDER BY sr.id DESC LIMIT 1`, same one-pass selection keyed on `id`
(ids are unique, so the tie case cannot arise). -/
def pickMaxIdFirst (l : List SearchResultRow) : Option SearchResultRow :=
  match l with
  | [] => none
  | a :: rest => some (rest.foldl (fun best r => if best.id < r.id then r else best) a)

/-- Outcome of `get_cached_brave_response` as seen by its caller. -/
inductive BraveLookup : Type where
  /-- A row was found and `json.loads` succeeded: the dict is returned. -/
  | found (v : JValue) : BraveLookup
  /-- No row: Python `None` is returned. -/
  | absent : BraveLookup
  /-- A row was found but `json.loads` raised `JSONDecodeError`; that is a
  `ValueError`, not a `sqlite3.Error`, so the `except` clause does not catch
  it and it propagates out of the call. -/
  | decodeError : BraveLookup
  deriving DecidableEq

/-- `CacheManager.get_cached_brave_response`. -/
def get_cached_brave_response (st : Store) (question : String) : BraveLookup :=
  match pickMaxIdFirst (joinedSearchResults st question) with
  | none => .absent
  | some sr =>
    match jsonLoads sr.brave_response_json with
    | some v => .found v
    | none => .decodeError

/-- Python dict assignment `d[k] = v` on an insertion-ordered dict modeled
as an association list: overwrite in place if the key exists, else append. -/
def dictInsert (d : List (String × String)) (k v : String) : List (String × String) :=
  if d.any (fun p => p.1 == k) then d.map (fun p => if p.1 == k then (k, v) else p)
  else d ++ [(k, v)]

/-- Lookup in such a dict. -/
def lookupAssoc (d : List (String × String)) (k : String) : Option String :=
  (d.find? (fun p => p.1 == k)).map (fun p => p.2)

/-- `CacheManager.get_cached_web_contents`: per-URL point lookup
`SELECT content FROM web_contents WHERE url = ?`, collecting hits into the
`cached_contents` dict and silently skipping misses. -/
def get_cached_web_contents (st : Store) (urls : List String) : List (String × String) :=
  urls.foldl (fun acc url =>
    match st.web_contents.find? (fun r => r.url == url) with
    | some r => dictInsert acc url r.content
    | none => acc) []

/-- A row with url `u` and content `c` is stored. -/
def storedContent (st : Store) (u c : String) : Prop :=
  ∃ wr ∈ st.web_contents, wr.url = u ∧ wr.content = c

/-- Well-formedness of a store, as the schema constraints and append-only
discipline guarantee for every store the code can actually build:
`AUTOINCREMENT` ids are `1..n` in rowid order for `queries` and
`search_results`, the `UNIQUE` columns are duplicate-free, and the
`NOT NULL` foreign keys of `answers` and `search_results` point at
existing `queries` ids. -/
def Store.WF (st : Store) : Prop :=
  st.queries.map (fun r => r.id) = List.range' 1 st.queries.length ∧
  st.search_results.map (fun r => r.id) = List.range' 1 st.search_results.length ∧
  (st.queries.map (fun r => r.question)).Nodup ∧
  (st.web_contents.map (fun r => r.url)).Nodup ∧
  (∀ a ∈ st.answers, 1 ≤ a.query_id ∧ a.query_id ≤ st.queries.length) ∧
  (∀ sr ∈ st.search_results, 1 ≤ sr.query_id ∧ sr.query_id ≤ st.queries.length)

/-- The invariant is decidable, so witnesses can discharge it on concrete
stores by evaluation. -/
instance (st : Store) : Decidable st.WF := by
  unfold Store.WF
  exact inferInstance

/-- One `recordCycle` invocation's arguments (plus clock and injected
failure), for stating multi-call properties. -/
structure CycleArgs : Type where
  question : String
  brave : JValue
  web : List (String × String)
  answer_text : String
  source_url : Option String
  now : Nat
  failAt : Option Nat
  deriving DecidableEq

/-- Run one recorded cycle. -/
def runCycle (st : Store) (c : CycleArgs) : Store :=
  (cache_qa_data st c.question c.brave c.web c.answer_text c.source_url c.now c.failAt).fst

/-- Run a sequence of cycles left to right. -/
def runCycles (st : Store) (calls : List CycleArgs) : Store :=
  calls.foldl runCycle st

/-- Number of `queries` rows holding question `q`. -/
def countQuestion (st : Store) (q : String) : Nat :=
  (st.queries.filter (fun r => r.question == q)).length

/-- `failAt` actually hits one of the `5 + n` statements of a
`cache_qa_data` call with `n` web-content pairs. -/
def failureFires (failAt : Option Nat) (n : Nat) : Prop :=
  ∃ k, failAt = some k ∧ k ≤ 4 + n

/-! ### Structural lemmas about the write operations -/

theorem insertOrIgnoreQuery_search_results (st : Store) (q : String) (now : Nat) :
    (insertOrIgnoreQuery st q now).search_results = st.search_results := by
  unfold insertOrIgnoreQuery; split <;> rfl

theorem insertOrIgnoreQuery_web_contents (st : Store) (q : String) (now : Nat) :
    (insertOrIgnoreQuery st q now).web_contents = st.web_contents := by
  unfold insertOrIgnoreQuery; split <;> rfl

theorem insertOrIgnoreQuery_answers (st : Store) (q : String) (now : Nat) :
    (insertOrIgnoreQuery st q now).answers = st.answers := by
  unfold insertOrIgnoreQuery; split <;> rfl

theorem insertOrIgnoreQuery_queries_ext (st : Store) (q : String) (now : Nat) :
    ∃ ext, (insertOrIgnoreQuery st q now).queries = st.queries ++ ext := by
  unfold insertOrIgnoreQuery; split
  · exact ⟨[], by simp⟩
  · exact ⟨_, rfl⟩

theorem insertOrIgnoreQuery_mem (st : Store) (q : String) (now : Nat) :
    ∃ qr ∈ (insertOrIgnoreQuery st q now).queries, qr.question = q := by
  unfold insertOrIgnoreQuery
  split
  · next h =>
    rcases List.any_eq_true.mp h with ⟨qr, hmem, hq⟩
    exact ⟨qr, hmem, by simpa using hq⟩
  · exact ⟨⟨st.queries.length + 1, q, now⟩, by simp⟩

theorem selectQueryId_insertOrIgnoreQuery (st : Store) (q : String) (now : Nat) :
    ∃ qid, selectQueryId (insertOrIgnoreQuery st q now) q = some qid := by
  obtain ⟨qr, hmem, hq⟩ := insertOrIgnoreQuery_mem st q now
  have : ((insertOrIgnoreQuery st q now).queries.find? (fun r => r.question == q)).isSome := by
    rw [List.find?_isSome]
    exact ⟨qr, hmem, by simpa using hq⟩
  rcases Option.isSome_iff_exists.mp this with ⟨r, hr⟩
  exact ⟨r.id, by simp [selectQueryId, hr]⟩

theorem insertSearchResult_queries (st : Store) (qid : Nat) (j : String) :
    (insertSearchResult st qid j).queries = st.queries := rfl

theorem insertSearchResult_web_contents (st : Store) (qid : Nat) (j : String) :
    (insertSearchResult st qid j).web_contents = st.web_contents := rfl

theorem insertSearchResult_answers (st : Store) (qid : Nat) (j : String) :
    (insertSearchResult st qid j).answers = st.answers := rfl

theorem insertSearchResult_search_results (st : Store) (qid : Nat) (j : String) :
    (insertSearchResult st qid j).search_results =
      st.search_results ++ [⟨st.search_results.length + 1, qid, j⟩] := rfl

theorem insertOrIgnoreWebContent_queries (st : Store) (u c : String) (now : Nat) :
    (insertOrIgnoreWebContent st u c now).queries = st.queries := by
  unfold insertOrIgnoreWebContent; split <;> rfl

theorem insertOrIgnoreWebContent_search_results (st : Store) (u c : String) (now : Nat) :
    (insertOrIgnoreWebContent st u c now).search_results = st.search_results := by
  unfold insertOrIgnoreWebContent; split <;> rfl

theorem insertOrIgnoreWebContent_answers (st : Store) (u c : String) (now : Nat) :
    (insertOrIgnoreWebContent st u c now).answers = st.answers := by
  unfold insertOrIgnoreWebContent; split <;> rfl

theorem insertOrIgnoreWebContent_ext (st : Store) (u c : String) (now : Nat) :
    ∃ ext, (insertOrIgnoreWebContent st u c now).web_contents = st.web_contents ++ ext := by
  unfold insertOrIgnoreWebContent; split
  · exact ⟨[], by simp⟩
  · exact ⟨_, rfl⟩

theorem insertOrIgnoreWebContent_covers (st : Store) (u c : String) (now : Nat) :
    ∃ wr ∈ (insertOrIgnoreWebContent st u c now).web_contents, wr.url = u := by
  unfold insertOrIgnoreWebContent
  split
  · next h =>
    rcases List.any_eq_true.mp h with ⟨wr, hmem, hu⟩
    exact ⟨wr, hmem, by simpa using hu⟩
  · exact ⟨⟨st.web_contents.length + 1, u, c, now⟩, by simp⟩

theorem insertAnswer_queries (st : Store) (qid : Nat) (a : String) (s : Option String) (now : Nat) :
    (insertAnswer st qid a s now).queries = st.queries := rfl

theorem insertAnswer_search_results (st : Store) (qid : Nat) (a : String) (s : Option String)
    (now : Nat) : (insertAnswer st qid a s now).search_results = st.search_results := rfl

theorem insertAnswer_web_contents (st : Store) (qid : Nat) (a : String) (s : Option String)
    (now : Nat) : (insertAnswer st qid a s now).web_contents = st.web_contents := rfl

theorem insertAnswer_answers (st : Store) (qid : Nat) (a : String) (s : Option String)
    (now : Nat) : (insertAnswer st qid a s now).answers =
      st.answers ++ [⟨st.answers.length + 1, qid, a, s, now⟩] := rfl

/-! ### The web-contents loop -/

theorem webFold_queries (pairs : List (String × String)) (st : Store) (now : Nat) :
    (pairs.foldl (fun acc p => insertOrIgnoreWebContent acc p.1 p.2 now) st).queries
      = st.queries := by
  induction pairs generalizing st with
  | nil => rfl
  | cons p rest ih => simp [List.foldl_cons, ih, insertOrIgnoreWebContent_queries]

theorem webFold_search_results (pairs : List (String × String)) (st : Store) (now : Nat) :
    (pairs.foldl (fun acc p => insertOrIgnoreWebContent acc p.1 p.2 now) st).search_results
      = st.search_results := by
  induction pairs generalizing st with
  | nil => rfl
  | cons p rest ih => simp [List.foldl_cons, ih, insertOrIgnoreWebContent_search_results]

theorem webFold_answers (pairs : List (String × String)) (st : Store) (now : Nat) :
    (pairs.foldl (fun acc p => insertOrIgnoreWebContent acc p.1 p.2 now) st).answers
      = st.answers := by
  induction pairs generalizing st with
  | nil => rfl
  | cons p rest ih => simp [List.foldl_cons, ih, insertOrIgnoreWebContent_answers]

theorem webFold_ext (pairs : List (String × String)) (st : Store) (now : Nat) :
    ∃ ext, (pairs.foldl (fun acc p => insertOrIgnoreWebContent acc p.1 p.2 now) st).web_contents
      = st.web_contents ++ ext := by
  induction pairs generalizing st with
  | nil => exact ⟨[], by simp [List.foldl_nil]⟩
  | cons p rest ih =>
    rw [List.foldl_cons]
    obtain ⟨e1, he1⟩ := insertOrIgnoreWebContent_ext st p.1 p.2 now
    obtain ⟨e2, he2⟩ := ih (insertOrIgnoreWebContent st p.1 p.2 now)
    exact ⟨e1 ++ e2, by rw [he2, he1, List.append_assoc]⟩

theorem webFold_covers (pairs : List (String × String)) (st : Store) (now : Nat) :
    ∀ p ∈ pairs,
      ∃ wr ∈ (pairs.foldl (fun acc q => insertOrIgnoreWebContent acc q.1 q.2 now) st).web_contents,
        wr.url = p.1 := by
  induction pairs generalizing st with
  | nil => intro p hp; cases hp
  | cons hd rest ih =>
    intro p hp
    rw [List.foldl_cons]
    rcases List.mem_cons.mp hp with rfl | hp
    · obtain ⟨wr, hmem, hu⟩ := insertOrIgnoreWebContent_covers st p.1 p.2 now
      obtain ⟨ext, hext⟩ := webFold_ext rest (insertOrIgnoreWebContent st p.1 p.2 now) now
      exact ⟨wr, by rw [hext]; exact List.mem_append_left _ hmem, hu⟩
    · exact ih (insertOrIgnoreWebContent st hd.1 hd.2 now) p hp

theorem insertWebContentsLoop_no_fire (pairs : List (String × String)) (st : Store) (now : Nat)
    (failAt : Option Nat) (i : Nat)
    (h : ∀ k, failAt = some k → k < i ∨ i + pairs.length ≤ k) :
    insertWebContentsLoop st pairs now failAt i
      = some (pairs.foldl (fun acc p => insertOrIgnoreWebContent acc p.1 p.2 now) st) := by
  induction pairs generalizing st i with
  | nil => rfl
  | cons hd rest ih =>
    have hne : ¬ failAt = some i := by
      intro hk
      rcases h i hk with hlt | hge
      · omega
      · rw [List.length_cons] at hge; omega
    simp only [insertWebContentsLoop, hne, if_false, List.foldl_cons]
    exact ih (insertOrIgnoreWebContent st hd.1 hd.2 now) (i + 1)
      (fun k hk => by rcases h k hk with hlt | hge
                      · left; omega
                      · right; rw [List.length_cons] at hge; omega)

theorem insertWebContentsLoop_fire (pairs : List (String × String)) (st : Store) (now : Nat)
    (k : Nat) (i : Nat) (hik : i ≤ k) (hk : k < i + pairs.length) :
    insertWebContentsLoop st pairs now (some k) i = none := by
  induction pairs generalizing st i with
  | nil => rw [List.length_nil] at hk; omega
  | cons hd rest ih =>
    by_cases hki : k = i
    · subst hki; simp [insertWebContentsLoop]
    · have : ¬ (some k = some i) := by simp; omega
      simp only [insertWebContentsLoop, this, if_false]
      exact ih (insertOrIgnoreWebContent st hd.1 hd.2 now) (i + 1) (by omega)
        (by rw [List.length_cons] at hk; omega)

/-! ### Rollback and commit characterization of `cache_qa_data` -/

theorem cache_qa_data_fire (st : Store) (q : String) (v : JValue)
    (w : List (String × String)) (a : String) (s : Option String) (now : Nat)
    (failAt : Option Nat) (h : failureFires failAt w.length) :
    (cache_qa_data st q v w a s now failAt).fst = st := by
  obtain ⟨k, rfl, hk⟩ := h
  obtain ⟨qid, hqid⟩ := selectQueryId_insertOrIgnoreQuery st q now
  rcases Nat.lt_or_ge k 3 with h3 | h3
  · interval_cases k
    · simp [cache_qa_data]
    · simp [cache_qa_data]
    · simp [cache_qa_data, hqid]
  · have c0 : ¬ (some k = some 0) := by simp; omega
    have c1 : ¬ (some k = some 1) := by simp; omega
    have c2 : ¬ (some k = some 2) := by simp; omega
    rcases Nat.lt_or_ge k (3 + w.length) with h4 | h4
    · have hl := insertWebContentsLoop_fire w
        (insertSearchResult (insertOrIgnoreQuery st q now) qid (jsonDumps v)) now k 3 h3 h4
      simp [cache_qa_data, hqid, hl, c0, c1, c2]
    · have hl := insertWebContentsLoop_no_fire w
        (insertSearchResult (insertOrIgnoreQuery st q now) qid (jsonDumps v)) now (some k) 3
        (fun k' hk' => by right; cases hk'; omega)
      by_cases e3 : k = 3 + w.length
      · subst e3
        have d0 : ¬ (3 + w.length = 0) := by omega
        have d1 : ¬ (3 + w.length = 1) := by omega
        have d2 : ¬ (3 + w.length = 2) := by omega
        simp [cache_qa_data, hqid, hl, d0, d1, d2]
      · have e4 : k = 4 + w.length := by omega
        subst e4
        have d0 : ¬ (4 + w.length = 0) := by omega
        have d1 : ¬ (4 + w.length = 1) := by omega
        have d2 : ¬ (4 + w.length = 2) := by omega
        have d3 : ¬ (4 + w.length = 3 + w.length) := by omega
        simp [cache_qa_data, hqid, hl, d0, d1, d2, d3]

theorem cache_qa_data_no_fire (st : Store) (q : String) (v : JValue)
    (w : List (String × String)) (a : String) (s : Option String) (now : Nat)
    (failAt : Option Nat) (h : ¬ failureFires failAt w.length) :
    (cache_qa_data st q v w a s now failAt).fst = commitCycle st q v w a s now := by
  obtain ⟨qid, hqid⟩ := selectQueryId_insertOrIgnoreQuery st q now
  have hnf : ∀ k, failAt = some k → 4 + w.length < k := by
    intro k hkk
    by_contra hle
    exact h ⟨k, hkk, by omega⟩
  have c0 : ¬ failAt = some 0 := fun e => by have := hnf 0 e; omega
  have c1 : ¬ failAt = some 1 := fun e => by have := hnf 1 e; omega
  have c2 : ¬ failAt = some 2 := fun e => by have := hnf 2 e; omega
  have c3 : ¬ failAt = some (3 + w.length) := fun e => by have := hnf _ e; omega
  have c4 : ¬ failAt = some (4 + w.length) := fun e => by have := hnf _ e; omega
  have hl := insertWebContentsLoop_no_fire w
    (insertSearchResult (insertOrIgnoreQuery st q now) qid (jsonDumps v)) now failAt 3
    (fun k hkk => Or.inr (by have := hnf k hkk; omega))
  simp [cache_qa_data, commitCycle, hqid, hl, c0, c1, c2, c3, c4]

/-! ### Structure of the committed state -/

theorem commitCycle_queries (st : Store) (q : String) (v : JValue)
    (w : List (String × String)) (a : String) (s : Option String) (now : Nat) :
    (commitCycle st q v w a s now).queries = (insertOrIgnoreQuery st q now).queries := by
  unfold commitCycle
  simp [insertAnswer_queries, webFold_queries, insertSearchResult_queries]

theorem commitCycle_search_results (st : Store) (q : String) (v : JValue)
    (w : List (String × String)) (a : String) (s : Option String) (now : Nat) :
    (commitCycle st q v w a s now).search_results = st.search_results ++
      [⟨st.search_results.length + 1,
        (selectQueryId (insertOrIgnoreQuery st q now) q).getD 0, jsonDumps v⟩] := by
  unfold commitCycle
  simp [insertAnswer_search_results, webFold_search_results, insertSearchResult_search_results,
    insertOrIgnoreQuery_search_results]

theorem commitCycle_answers (st : Store) (q : String) (v : JValue)
    (w : List (String × String)) (a : String) (s : Option String) (now : Nat) :
    (commitCycle st q v w a s now).answers = st.answers ++
      [⟨st.answers.length + 1,
        (selectQueryId (insertOrIgnoreQuery st q now) q).getD 0, a, s, now⟩] := by
  unfold commitCycle
  simp [insertAnswer_answers, webFold_answers, insertSearchResult_answers,
    insertOrIgnoreQuery_answers]

theorem commitCycle_web_ext (st : Store) (q : String) (v : JValue)
    (w : List (String × String)) (a : String) (s : Option String) (now : Nat) :
    ∃ ext, (commitCycle st q v w a s now).web_contents = st.web_contents ++ ext := by
  unfold commitCycle
  obtain ⟨e, he⟩ := webFold_ext w
    (insertSearchResult (insertOrIgnoreQuery st q now)
      ((selectQueryId (insertOrIgnoreQuery st q now) q).getD 0) (jsonDumps v)) now
  exact ⟨e, by
    simp only [insertAnswer_web_contents, he, insertSearchResult_web_contents,
      insertOrIgnoreQuery_web_contents]⟩

theorem commitCycle_web_covers (st : Store) (q : String) (v : JValue)
    (w : List (String × String)) (a : String) (s : Option String) (now : Nat) :
    ∀ p ∈ w, ∃ wr ∈ (commitCycle st q v w a s now).web_contents, wr.url = p.1 := by
  intro p hp
  unfold commitCycle
  simp only [insertAnswer_web_contents]
  exact webFold_covers w _ now p hp

theorem commitCycle_query_mem (st : Store) (q : String) (v : JValue)
    (w : List (String × String)) (a : String) (s : Option String) (now : Nat) :
    ∃ qr ∈ (commitCycle st q v w a s now).queries,
      qr.question = q ∧ qr.id = (selectQueryId (insertOrIgnoreQuery st q now) q).getD 0 := by
  obtain ⟨qid, hqid⟩ := selectQueryId_insertOrIgnoreQuery st q now
  rcases Option.map_eq_some'.mp hqid with ⟨qr, hfind, hid⟩
  refine ⟨qr, ?_, ?_, ?_⟩
  · rw [commitCycle_queries]
    exact List.mem_of_find?_eq_some hfind
  · have := List.find?_some hfind
    simpa using this
  · rw [show selectQueryId (insertOrIgnoreQuery st q now) q = some qid from hqid]
    simpa using hid

/-! ### Claims C2, C3, C9 -/

/-- C2: `recordCycle` is atomic: if the injected `sqlite3.Error` hits any of
the call's statements (including the commit), the rollback returns the store
to its exact pre-call state; otherwise the new `SearchResult` row, the new
`Answer` row, the `Query` row and a row for every requested web-content URL
are all visible together in the committed store. -/
theorem recordCycle_atomic (st : Store) (q : String) (v : JValue)
    (w : List (String × String)) (a : String) (s : Option String) (now : Nat)
    (failAt : Option Nat) :
    (failureFires failAt w.length → (cache_qa_data st q v w a s now failAt).fst = st) ∧
    (¬ failureFires failAt w.length →
      ∃ qid,
        (∃ qr ∈ (cache_qa_data st q v w a s now failAt).fst.queries,
          qr.question = q ∧ qr.id = qid) ∧
        (∃ sr ∈ (cache_qa_data st q v w a s now failAt).fst.search_results,
          sr.query_id = qid ∧ sr.brave_response_json = jsonDumps v) ∧
        (∃ ar ∈ (cache_qa_data st q v w a s now failAt).fst.answers,
          ar.query_id = qid ∧ ar.answer_text = a ∧ ar.source_url = s) ∧
        (∀ p ∈ w, ∃ wr ∈ (cache_qa_data st q v w a s now failAt).fst.web_contents,
          wr.url = p.1)) := by
  constructor
  · exact cache_qa_data_fire st q v w a s now failAt
  · intro hnf
    rw [cache_qa_data_no_fire st q v w a s now failAt hnf]
    refine ⟨(selectQueryId (insertOrIgnoreQuery st q now) q).getD 0,
      commitCycle_query_mem st q v w a s now, ?_, ?_, commitCycle_web_covers st q v w a s now⟩
    · rw [commitCycle_search_results]
      exact ⟨_, List.mem_append_right _ (List.mem_singleton_self _), rfl, rfl⟩
    · rw [commitCycle_answers]
      exact ⟨_, List.mem_append_right _ (List.mem_singleton_self _), rfl, rfl, rfl⟩

/-- Witness for C2 at concrete inputs: an injected failure at the
search-results insert leaves the fresh store untouched, and the failure-free
call commits all four kinds of rows together. -/
theorem recordCycle_atomic_witness :
    (cache_qa_data Store.init "Q" JValue.null [("u", "c")] "A" none 7 (some 2)).fst
      = Store.init ∧
    (∃ qid,
      (∃ qr ∈ (cache_qa_data Store.init "Q" JValue.null [("u", "c")] "A" none 7 none).fst.queries,
        qr.question = "Q" ∧ qr.id = qid) ∧
      (∃ sr ∈ (cache_qa_data Store.init "Q" JValue.null [("u", "c")] "A" none 7
          none).fst.search_results,
        sr.query_id = qid ∧ sr.brave_response_json = jsonDumps JValue.null) ∧
      (∃ ar ∈ (cache_qa_data Store.init "Q" JValue.null [("u", "c")] "A" none 7
          none).fst.answers,
        ar.query_id = qid ∧ ar.answer_text = "A" ∧ ar.source_url = none) ∧
      (∀ p ∈ [("u", "c")],
        ∃ wr ∈ (cache_qa_data Store.init "Q" JValue.null [("u", "c")] "A" none 7
          none).fst.web_contents, wr.url = p.1)) :=
  ⟨(recordCycle_atomic Store.init "Q" JValue.null [("u", "c")] "A" none 7 (some 2)).1
      ⟨2, rfl, by omega⟩,
   (recordCycle_atomic Store.init "Q" JValue.null [("u", "c")] "A" none 7 none).2
      (fun h => by rcases h with ⟨k, hk, _⟩; cases hk)⟩

/-- C3 (evidence for the code bug): `cache_qa_data` has no `return`
statement, so its Python return value is `None` both when the transaction
commits and when a `sqlite3.Error` forces a rollback (the error is only
printed).  Here a failing call and a succeeding call have equal return
values, even though the failing call wrote nothing and the succeeding call
changed the store: the caller cannot distinguish failure from success. -/
theorem recordCycle_silent_failure :
    (cache_qa_data Store.init "Q" JValue.null [] "A" none 0 (some 2)).snd
      = (cache_qa_data Store.init "Q" JValue.null [] "A" none 0 none).snd ∧
    (cache_qa_data Store.init "Q" JValue.null [] "A" none 0 (some 2)).fst = Store.init ∧
    (cache_qa_data Store.init "Q" JValue.null [] "A" none 0 none).fst ≠ Store.init := by
  refine ⟨rfl, ?_, ?_⟩ <;> decide

/-- C9: the single write operation only ever appends rows: every pre-call
row of every table survives in place (no delete, no update-in-place), both
on commit and on rollback.  The three lookup operations are modeled as pure
functions of the store (they execute only `SELECT` statements), so they
cannot change it. -/
theorem recordCycle_append_only (st : Store) (q : String) (v : JValue)
    (w : List (String × String)) (a : String) (s : Option String) (now : Nat)
    (failAt : Option Nat) :
    ∃ qs srs wcs ans,
      (cache_qa_data st q v w a s now failAt).fst.queries = st.queries ++ qs ∧
      (cache_qa_data st q v w a s now failAt).fst.search_results = st.search_results ++ srs ∧
      (cache_qa_data st q v w a s now failAt).fst.web_contents = st.web_contents ++ wcs ∧
      (cache_qa_data st q v w a s now failAt).fst.answers = st.answers ++ ans := by
  by_cases hf : failureFires failAt w.length
  · rw [cache_qa_data_fire st q v w a s now failAt hf]
    exact ⟨[], [], [], [], by simp, by simp, by simp, by simp⟩
  · rw [cache_qa_data_no_fire st q v w a s now failAt hf]
    obtain ⟨e1, he1⟩ := insertOrIgnoreQuery_queries_ext st q now
    obtain ⟨e3, he3⟩ := commitCycle_web_ext st q v w a s now
    refine ⟨e1, _, e3, _, ?_, commitCycle_search_results st q v w a s now, he3,
      commitCycle_answers st q v w a s now⟩
    rw [commitCycle_queries]
    exact he1

/-! ### The schema invariant and its preservation -/

theorem WF_init : Store.WF Store.init := by
  refine ⟨rfl, rfl, ?_, ?_, ?_, ?_⟩ <;> simp [Store.init]

theorem map_ids_concat {α : Type} (f : α → Nat) (l : List α) (x : α)
    (h : l.map f = List.range' 1 l.length) (hx : f x = l.length + 1) :
    (l ++ [x]).map f = List.range' 1 (l ++ [x]).length := by
  rw [List.map_append, h, List.length_append]
  simp only [List.map_cons, List.map_nil, List.length_cons, List.length_nil, hx]
  rw [List.range'_concat]
  simp [Nat.add_comm]

theorem mem_id_bound {α : Type} (f : α → Nat) (l : List α)
    (h : l.map f = List.range' 1 l.length) (x : α) (hx : x ∈ l) :
    1 ≤ f x ∧ f x ≤ l.length := by
  have hm : f x ∈ l.map f := List.mem_map_of_mem f hx
  rw [h] at hm
  have := List.mem_range'_1.mp hm
  omega

theorem selectQueryId_bound (st : Store) (q : String) (qid : Nat)
    (hids : st.queries.map (fun r => r.id) = List.range' 1 st.queries.length)
    (h : selectQueryId st q = some qid) :
    1 ≤ qid ∧ qid ≤ st.queries.length := by
  rcases Option.map_eq_some'.mp h with ⟨qr, hfind, hid⟩
  have hmem := List.mem_of_find?_eq_some hfind
  have hb := mem_id_bound (fun r => r.id) st.queries hids qr hmem
  dsimp only at hb hid
  omega

theorem WF_insertOrIgnoreQuery (st : Store) (q : String) (now : Nat)
    (hwf : Store.WF st) : Store.WF (insertOrIgnoreQuery st q now) := by
  obtain ⟨h1, h2, h3, h4, h5, h6⟩ := hwf
  unfold insertOrIgnoreQuery
  split
  · exact ⟨h1, h2, h3, h4, h5, h6⟩
  next hany =>
    have hno : ∀ qr ∈ st.queries, qr.question ≠ q := by
      intro qr hqr he
      exact hany (List.any_eq_true.mpr ⟨qr, hqr, by simp [he]⟩)
    refine ⟨map_ids_concat _ _ _ h1 rfl, h2, ?_, h4, ?_, ?_⟩
    · rw [List.map_append, List.nodup_append]
      refine ⟨h3, by simp, ?_⟩
      intro x hx
      rcases List.mem_map.mp hx with ⟨qr, hqr, rfl⟩
      simp only [List.map_cons, List.map_nil, List.mem_cons, List.not_mem_nil]
      rintro (he | he)
      · exact hno qr hqr he
      · cases he
    · intro a ha
      have := h5 a ha
      rw [List.length_append]
      simp only [List.length_cons, List.length_nil]
      omega
    · intro sr hsr
      have := h6 sr hsr
      rw [List.length_append]
      simp only [List.length_cons, List.length_nil]
      omega

theorem WF_insertSearchResult (st : Store) (qid : Nat) (j : String)
    (hq : 1 ≤ qid ∧ qid ≤ st.queries.length) (hwf : Store.WF st) :
    Store.WF (insertSearchResult st qid j) := by
  obtain ⟨h1, h2, h3, h4, h5, h6⟩ := hwf
  refine ⟨h1, map_ids_concat _ _ _ h2 rfl, h3, h4, h5, ?_⟩
  intro sr hsr
  rcases List.mem_append.mp hsr with hold | hnew
  · exact h6 sr hold
  · rcases List.mem_singleton.mp hnew with rfl
    exact hq

theorem WF_insertOrIgnoreWebContent (st : Store) (u c : String) (now : Nat)
    (hwf : Store.WF st) : Store.WF (insertOrIgnoreWebContent st u c now) := by
  obtain ⟨h1, h2, h3, h4, h5, h6⟩ := hwf
  unfold insertOrIgnoreWebContent
  split
  · exact ⟨h1, h2, h3, h4, h5, h6⟩
  next hany =>
    have hno : ∀ wr ∈ st.web_contents, wr.url ≠ u := by
      intro wr hwr he
      exact hany (List.any_eq_true.mpr ⟨wr, hwr, by simp [he]⟩)
    refine ⟨h1, h2, h3, ?_, h5, h6⟩
    rw [List.map_append, List.nodup_append]
    refine ⟨h4, by simp, ?_⟩
    intro x hx
    rcases List.mem_map.mp hx with ⟨wr, hwr, rfl⟩
    simp only [List.map_cons, List.map_nil, List.mem_cons, List.not_mem_nil]
    rintro (he | he)
    · exact hno wr hwr he
    · cases he

theorem WF_webFold (pairs : List (String × String)) (st : Store) (now : Nat)
    (hwf : Store.WF st) :
    Store.WF (pairs.foldl (fun acc p => insertOrIgnoreWebContent acc p.1 p.2 now) st) := by
  induction pairs generalizing st with
  | nil => exact hwf
  | cons hd rest ih =>
    rw [List.foldl_cons]
    exact ih _ (WF_insertOrIgnoreWebContent st hd.1 hd.2 now hwf)

theorem WF_insertAnswer (st : Store) (qid : Nat) (a : String) (s : Option String) (now : Nat)
    (hq : 1 ≤ qid ∧ qid ≤ st.queries.length) (hwf : Store.WF st) :
    Store.WF (insertAnswer st qid a s now) := by
  obtain ⟨h1, h2, h3, h4, h5, h6⟩ := hwf
  refine ⟨h1, h2, h3, h4, ?_, h6⟩
  intro ar har
  rcases List.mem_append.mp har with hold | hnew
  · exact h5 ar hold
  · rcases List.mem_singleton.mp hnew with rfl
    exact hq

theorem WF_commitCycle (st : Store) (q : String) (v : JValue)
    (w : List (String × String)) (a : String) (s : Option String) (now : Nat)
    (hwf : Store.WF st) : Store.WF (commitCycle st q v w a s now) := by
  obtain ⟨qid, hqid⟩ := selectQueryId_insertOrIgnoreQuery st q now
  have hwf1 := WF_insertOrIgnoreQuery st q now hwf
  have hb := selectQueryId_bound (insertOrIgnoreQuery st q now) q qid hwf1.1 hqid
  have hwf2 := WF_insertSearchResult (insertOrIgnoreQuery st q now) qid (jsonDumps v) hb hwf1
  have hwf3 := WF_webFold w _ now hwf2
  have hb3 : 1 ≤ qid ∧ qid ≤ (w.foldl (fun acc p => insertOrIgnoreWebContent acc p.1 p.2 now)
      (insertSearchResult (insertOrIgnoreQuery st q now) qid (jsonDumps v))).queries.length := by
    rw [webFold_queries, insertSearchResult_queries]
    exact hb
  have := WF_insertAnswer _ qid a s now hb3 hwf3
  unfold commitCycle
  simp only [hqid, Option.getD_some]
  exact this

theorem WF_runCycle (st : Store) (c : CycleArgs) (hwf : Store.WF st) :
    Store.WF (runCycle st c) := by
  unfold runCycle
  by_cases hf : failureFires c.failAt c.web.length
  · rw [cache_qa_data_fire _ _ _ _ _ _ _ _ hf]
    exact hwf
  · rw [cache_qa_data_no_fire _ _ _ _ _ _ _ _ hf]
    exact WF_commitCycle _ _ _ _ _ _ _ hwf

/-! ### Claim C4: idempotent question identity -/

theorem filter_question_len_le_one (l : List QueryRow) (q : String)
    (h : (l.map (fun r => r.question)).Nodup) :
    (l.filter (fun r => r.question == q)).length ≤ 1 := by
  induction l with
  | nil => simp
  | cons x xs ih =>
    rw [List.map_cons, List.nodup_cons] at h
    rw [List.filter_cons]
    by_cases hx : x.question = q
    · rw [if_pos (by simp [hx])]
      have hempty : xs.filter (fun r => r.question == q) = [] := by
        rw [List.filter_eq_nil_iff]
        intro r hr
        simp only [beq_iff_eq]
        intro he
        exact h.1 (by rw [hx, ← he]; exact List.mem_map_of_mem _ hr)
      rw [hempty]
      simp
    · rw [if_neg (by simp [hx])]
      exact ih h.2

theorem countQuestion_insertOrIgnoreQuery (st : Store) (q : String) (now : Nat)
    (hwf : Store.WF st) : countQuestion (insertOrIgnoreQuery st q now) q = 1 := by
  unfold countQuestion insertOrIgnoreQuery
  split
  · next hany =>
    rcases List.any_eq_true.mp hany with ⟨qr, hqr, hbeq⟩
    have hle := filter_question_len_le_one st.queries q hwf.2.2.1
    have hge : 0 < (st.queries.filter (fun r => r.question == q)).length := by
      rw [List.length_pos]
      intro hnil
      have := List.filter_eq_nil_iff.mp hnil qr hqr
      exact this hbeq
    omega
  · next hany =>
    have hempty : st.queries.filter (fun r => r.question == q) = [] := by
      rw [List.filter_eq_nil_iff]
      intro r hr hbeq
      exact hany (List.any_eq_true.mpr ⟨r, hr, hbeq⟩)
    simp only [List.filter_append, hempty]
    simp

theorem countQuestion_runCycle (st : Store) (c : CycleArgs) (q : String)
    (hwf : Store.WF st) (hq : c.question = q) (hnone : c.failAt = none) :
    countQuestion (runCycle st c) q = 1 := by
  unfold runCycle
  have hnf : ¬ failureFires c.failAt c.web.length := by
    rintro ⟨k, hk, _⟩
    rw [hnone] at hk
    cases hk
  rw [cache_qa_data_no_fire _ _ _ _ _ _ _ _ hnf]
  have : countQuestion (commitCycle st c.question c.brave c.web c.answer_text c.source_url c.now) q
      = countQuestion (insertOrIgnoreQuery st c.question c.now) q := by
    unfold countQuestion
    rw [commitCycle_queries]
  rw [this]
  subst hq
  exact countQuestion_insertOrIgnoreQuery st c.question c.now hwf

theorem runCycle_queries_ext (st : Store) (c : CycleArgs) :
    ∃ e, (runCycle st c).queries = st.queries ++ e := by
  unfold runCycle
  by_cases hf : failureFires c.failAt c.web.length
  · rw [cache_qa_data_fire _ _ _ _ _ _ _ _ hf]
    exact ⟨[], by simp⟩
  · rw [cache_qa_data_no_fire _ _ _ _ _ _ _ _ hf, commitCycle_queries]
    exact insertOrIgnoreQuery_queries_ext st c.question c.now

/-- C4: question identity is idempotent: starting from any well-formed
store, after any nonempty sequence of completed `recordCycle` calls for
question `q` exactly one `queries` row holds `q`, and every pre-existing
`queries` row survives untouched (so a repeated call resolves to the
existing row's identity instead of creating a duplicate). -/
theorem query_identity_idempotent (st : Store) (q : String) (calls : List CycleArgs)
    (hwf : Store.WF st) (hne : calls ≠ [])
    (hcalls : ∀ c ∈ calls, c.question = q ∧ c.failAt = none) :
    countQuestion (runCycles st calls) q = 1 ∧
    ∀ qr ∈ st.queries, qr ∈ (runCycles st calls).queries := by
  induction calls generalizing st with
  | nil => exact absurd rfl hne
  | cons c rest ih =>
    have hc := hcalls c (List.mem_cons_self c rest)
    have hwf1 := WF_runCycle st c hwf
    have hcount1 := countQuestion_runCycle st c q hwf hc.1 hc.2
    obtain ⟨e, he⟩ := runCycle_queries_ext st c
    have hstep : runCycles st (c :: rest) = runCycles (runCycle st c) rest := by
      unfold runCycles
      rw [List.foldl_cons]
    cases rest with
    | nil =>
      rw [hstep]
      refine ⟨hcount1, ?_⟩
      intro qr hqr
      show qr ∈ (runCycle st c).queries
      rw [he]
      exact List.mem_append_left e hqr
    | cons c2 rest2 =>
      have hrec := ih (runCycle st c) hwf1 (by simp)
        (fun c' h' => hcalls c' (List.mem_cons_of_mem c h'))
      rw [hstep]
      refine ⟨hrec.1, ?_⟩
      intro qr hqr
      exact hrec.2 qr (by rw [he]; exact List.mem_append_left e hqr)

/-- Witness for C4: two completed cycles for the same question on a fresh
store leave exactly one `queries` row for it. -/
theorem query_identity_idempotent_witness :
    countQuestion (runCycles Store.init
      [⟨"Q", JValue.null, [], "A1", none, 1, none⟩,
       ⟨"Q", JValue.null, [], "A2", some "u", 2, none⟩]) "Q" = 1 :=
  (query_identity_idempotent Store.init "Q"
    [⟨"Q", JValue.null, [], "A1", none, 1, none⟩,
     ⟨"Q", JValue.null, [], "A2", some "u", 2, none⟩]
    WF_init (by decide) (by decide)).1

/-! ### Claims C5 and C7: web-content lookups -/

theorem find?_url_of_mem (l : List WebContentRow) (u : String) (wr : WebContentRow)
    (h : (l.map (fun r => r.url)).Nodup) (hm : wr ∈ l) (hu : wr.url = u) :
    l.find? (fun r => r.url == u) = some wr := by
  induction l with
  | nil => cases hm
  | cons x xs ih =>
    rw [List.map_cons, List.nodup_cons] at h
    rcases List.mem_cons.mp hm with rfl | hm2
    · rw [List.find?_cons_of_pos _ (by simp [hu])]
    · by_cases hx : x.url = u
      · exfalso
        apply h.1
        rw [hx, ← hu]
        exact List.mem_map_of_mem _ hm2
      · rw [List.find?_cons_of_neg _ (by simp [hx])]
        exact ih h.2 hm2

theorem lookupAssoc_map_ow_ne (d : List (String × String)) (k v u : String) (hne : u ≠ k) :
    lookupAssoc (d.map (fun p => if p.1 == k then (k, v) else p)) u = lookupAssoc d u := by
  induction d with
  | nil => rfl
  | cons x xs ih =>
    unfold lookupAssoc
    by_cases hx : x.1 = k
    · rw [List.map_cons, if_pos (by simp [hx])]
      rw [List.find?_cons_of_neg _ (by simp [Ne.symm hne]),
        List.find?_cons_of_neg _ (by simp [hx]; exact Ne.symm hne)]
      exact ih
    · rw [List.map_cons, if_neg (by simp [hx])]
      by_cases hxu : x.1 = u
      · rw [List.find?_cons_of_pos _ (by simp [hxu]), List.find?_cons_of_pos _ (by simp [hxu])]
      · rw [List.find?_cons_of_neg _ (by simp [hxu]), List.find?_cons_of_neg _ (by simp [hxu])]
        exact ih

theorem lookupAssoc_map_ow_eq (d : List (String × String)) (k v : String)
    (hk : d.any (fun p => p.1 == k) = true) :
    lookupAssoc (d.map (fun p => if p.1 == k then (k, v) else p)) k = some v := by
  induction d with
  | nil => cases hk
  | cons x xs ih =>
    unfold lookupAssoc
    by_cases hx : x.1 = k
    · rw [List.map_cons, if_pos (by simp [hx]), List.find?_cons_of_pos _ (by simp)]
      rfl
    · rw [List.map_cons, if_neg (by simp [hx]), List.find?_cons_of_neg _ (by simp [hx])]
      have : xs.any (fun p => p.1 == k) = true := by
        rcases List.any_eq_true.mp hk with ⟨p, hp, hpk⟩
        rcases List.mem_cons.mp hp with rfl | hp2
        · exact absurd (by simpa using hpk) hx
        · exact List.any_eq_true.mpr ⟨p, hp2, hpk⟩
      exact ih this

theorem lookupAssoc_dictInsert (d : List (String × String)) (k v u : String) :
    lookupAssoc (dictInsert d k v) u = if u = k then some v else lookupAssoc d u := by
  unfold dictInsert
  split
  · next hany =>
    by_cases hu : u = k
    · subst hu
      rw [if_pos rfl]
      exact lookupAssoc_map_ow_eq d u v hany
    · rw [if_neg hu]
      exact lookupAssoc_map_ow_ne d k v u hu
  · next hany =>
    unfold lookupAssoc
    rw [List.find?_append]
    by_cases hu : u = k
    · subst hu
      have hnone : d.find? (fun p => p.1 == u) = none := by
        rw [List.find?_eq_none]
        intro p hp hpu
        exact hany (List.any_eq_true.mpr ⟨p, hp, hpu⟩)
      rw [if_pos rfl, hnone]
      simp [List.find?]
    · rw [if_neg hu]
      have htail : [(k, v)].find? (fun p => p.1 == u) = none := by
        rw [List.find?_eq_none]
        intro p hp
        rcases List.mem_singleton.mp hp with rfl
        simp [Ne.symm hu]
      rw [htail]
      cases d.find? (fun p => p.1 == u) <;> rfl

theorem storedContent_unique (st : Store) (u c₁ c₂ : String)
    (h : (st.web_contents.map (fun r => r.url)).Nodup)
    (h₁ : storedContent st u c₁) (h₂ : storedContent st u c₂) : c₁ = c₂ := by
  obtain ⟨r₁, hm₁, hu₁, hc₁⟩ := h₁
  obtain ⟨r₂, hm₂, hu₂, hc₂⟩ := h₂
  have e₁ := find?_url_of_mem st.web_contents u r₁ h hm₁ hu₁
  have e₂ := find?_url_of_mem st.web_contents u r₂ h hm₂ hu₂
  rw [e₁] at e₂
  cases e₂
  rw [← hc₁, ← hc₂]

theorem gcwc_foldl_spec (st : Store)
    (hnd : (st.web_contents.map (fun r => r.url)).Nodup)
    (urls : List String) (acc : List (String × String))
    (hacc : ∀ u cc, lookupAssoc acc u = some cc → storedContent st u cc) :
    ∀ u cc,
      lookupAssoc (urls.foldl (fun acc url =>
        match st.web_contents.find? (fun r => r.url == url) with
        | some r => dictInsert acc url r.content
        | none => acc) acc) u = some cc ↔
      (lookupAssoc acc u = some cc ∨ (u ∈ urls ∧ storedContent st u cc)) := by
  induction urls generalizing acc with
  | nil =>
    intro u cc
    simp only [List.foldl_nil, List.not_mem_nil, false_and, or_false]
  | cons u0 rest ih =>
    intro u cc
    rw [List.foldl_cons]
    rcases hfind : st.web_contents.find? (fun r => r.url == u0) with _ | r
    · have hnostore : ∀ cc0, ¬ storedContent st u0 cc0 := by
        rintro cc0 ⟨r, hr, hu, hc⟩
        have := List.find?_eq_none.mp hfind r hr
        simp [hu] at this
      simp only [hfind]
      rw [ih acc hacc u cc]
      constructor
      · rintro (h | ⟨hmem, hst⟩)
        · exact Or.inl h
        · exact Or.inr ⟨List.mem_cons_of_mem u0 hmem, hst⟩
      · rintro (h | ⟨hmem, hst⟩)
        · exact Or.inl h
        · rcases List.mem_cons.mp hmem with rfl | hmem2
          · exact absurd hst (hnostore cc)
          · exact Or.inr ⟨hmem2, hst⟩
    · have hrmem := List.mem_of_find?_eq_some hfind
      have hru : r.url = u0 := by simpa using List.find?_some hfind
      have hstore0 : storedContent st u0 r.content := ⟨r, hrmem, hru, rfl⟩
      simp only [hfind]
      have hacc' : ∀ u cc, lookupAssoc (dictInsert acc u0 r.content) u = some cc →
          storedContent st u cc := by
        intro u cc hl
        rw [lookupAssoc_dictInsert] at hl
        by_cases hu : u = u0
        · rw [if_pos hu] at hl
          cases hl
          rw [hu]
          exact hstore0
        · rw [if_neg hu] at hl
          exact hacc u cc hl
      rw [ih (dictInsert acc u0 r.content) hacc' u cc, lookupAssoc_dictInsert]
      by_cases hu : u = u0
      · subst hu
        rw [if_pos rfl]
        constructor
        · rintro (h | ⟨hmem, hst⟩)
          · cases h
            exact Or.inr ⟨List.mem_cons_self _ _, hstore0⟩
          · exact Or.inr ⟨List.mem_cons_of_mem _ hmem, hst⟩
        · rintro (h | ⟨hmem, hst⟩)
          · have := hacc u cc h
            exact Or.inl (by rw [storedContent_unique st u cc r.content hnd this hstore0])
          · exact Or.inl (by rw [storedContent_unique st u cc r.content hnd hst hstore0])
      · rw [if_neg hu]
        constructor
        · rintro (h | ⟨hmem, hst⟩)
          · exact Or.inl h
          · exact Or.inr ⟨List.mem_cons_of_mem u0 hmem, hst⟩
        · rintro (h | ⟨hmem, hst⟩)
          · exact Or.inl h
          · rcases List.mem_cons.mp hmem with rfl | hmem2
            · exact absurd rfl hu
            · exact Or.inr ⟨hmem2, hst⟩

/-- C7: `lookupWebContents` returns a mapping containing exactly the input
URLs that have stored content, each mapped to the stored content; input URLs
without stored content are silently omitted, and the empty input gives the
empty mapping. -/
theorem lookupWebContents_spec (st : Store) (urls : List String) (hwf : Store.WF st) :
    (∀ u cc, lookupAssoc (get_cached_web_contents st urls) u = some cc ↔
      (u ∈ urls ∧ storedContent st u cc)) ∧
    get_cached_web_contents st [] = [] := by
  constructor
  · intro u cc
    unfold get_cached_web_contents
    rw [gcwc_foldl_spec st hwf.2.2.2.1 urls []
      (by intro u cc h; simp [lookupAssoc] at h)]
    simp [lookupAssoc]
  · rfl

/-- Witness for C7 on a one-row store: a stored URL maps to its content and
an absent URL is omitted; the empty input gives the empty mapping. -/
theorem lookupWebContents_spec_witness :
    lookupAssoc (get_cached_web_contents
      (Store.mk [] [] [⟨1, "x", "cx", 0⟩] []) ["x", "missing"]) "x" = some "cx" ∧
    get_cached_web_contents (Store.mk [] [] [⟨1, "x", "cx", 0⟩] []) [] = [] :=
  ⟨((lookupWebContents_spec (Store.mk [] [] [⟨1, "x", "cx", 0⟩] []) ["x", "missing"]
      (by decide)).1 "x" "cx").mpr
    ⟨by decide, ⟨⟨1, "x", "cx", 0⟩, by decide, rfl, rfl⟩⟩,
   (lookupWebContents_spec (Store.mk [] [] [⟨1, "x", "cx", 0⟩] []) [] (by decide)).2⟩

/-- C5: first-write-wins for web content: when a row for URL `u` is already
stored, a completed `recordCycle` whose `webContents` contains `(u, c2)`
leaves that row in place (the `INSERT OR IGNORE` is a no-op for it), a
`lookupWebContents([u])` afterwards still returns the original content, and
the call as a whole still commits (its answer row is written). -/
theorem first_write_wins (st : Store) (wr : WebContentRow) (u c2 q : String) (v : JValue)
    (w : List (String × String)) (a : String) (s : Option String) (now : Nat)
    (hwf : Store.WF st) (hmem : wr ∈ st.web_contents) (hurl : wr.url = u)
    (hw : (u, c2) ∈ w) :
    wr ∈ (cache_qa_data st q v w a s now none).fst.web_contents ∧
    get_cached_web_contents (cache_qa_data st q v w a s now none).fst [u]
      = [(u, wr.content)] ∧
    (cache_qa_data st q v w a s now none).fst.answers.length = st.answers.length + 1 := by
  have hnf : ¬ failureFires (none : Option Nat) w.length := by rintro ⟨k, hk, _⟩; cases hk
  rw [cache_qa_data_no_fire st q v w a s now none hnf]
  obtain ⟨ext, hext⟩ := commitCycle_web_ext st q v w a s now
  have hfind : (commitCycle st q v w a s now).web_contents.find? (fun r => r.url == u)
      = some wr := by
    rw [hext, List.find?_append, find?_url_of_mem st.web_contents u wr hwf.2.2.2.1 hmem hurl]
    rfl
  refine ⟨by rw [hext]; exact List.mem_append_left _ hmem, ?_, ?_⟩
  · unfold get_cached_web_contents
    rw [List.foldl_cons]
    simp only [hfind]
    simp [dictInsert]
  · rw [commitCycle_answers]
    simp

/-- Witness for C5: re-recording URL `x` with new content leaves the stored
content unchanged and the second cycle still commits its answer. -/
theorem first_write_wins_witness :
    get_cached_web_contents
      (cache_qa_data (Store.mk [⟨1, "Q0", 1⟩] [⟨1, 1, "null"⟩] [⟨1, "x", "old", 1⟩]
        [⟨1, 1, "A0", none, 1⟩]) "Q1" JValue.null [("x", "new")] "A1" none 2 none).fst
      ["x"] = [("x", "old")] :=
  (first_write_wins (Store.mk [⟨1, "Q0", 1⟩] [⟨1, 1, "null"⟩] [⟨1, "x", "old", 1⟩]
      [⟨1, 1, "A0", none, 1⟩]) ⟨1, "x", "old", 1⟩ "x" "new" "Q1" JValue.null
      [("x", "new")] "A1" none 2 (by decide) (by decide) rfl (by decide)).2.1

/-! ### Fresh-question computations, claims C10 and C1 -/

theorem none_not_fires (n : Nat) : ¬ failureFires none n := by
  rintro ⟨k, hk, _⟩
  cases hk

theorem find?_question_none (l : List QueryRow) (q : String)
    (h : ∀ qr ∈ l, qr.question ≠ q) : l.find? (fun r => r.question == q) = none :=
  List.find?_eq_none.mpr (fun x hx => by simp [h x hx])

theorem insertOrIgnoreQuery_absent (st : Store) (q : String) (now : Nat)
    (h : ∀ qr ∈ st.queries, qr.question ≠ q) :
    insertOrIgnoreQuery st q now
      = { st with queries := st.queries ++ [⟨st.queries.length + 1, q, now⟩] } := by
  unfold insertOrIgnoreQuery
  rw [if_neg]
  intro hany
  rcases List.any_eq_true.mp hany with ⟨qr, hqr, hbeq⟩
  exact h qr hqr (by simpa using hbeq)

theorem insertOrIgnoreQuery_present (st : Store) (q : String) (now : Nat)
    (qr : QueryRow) (hqr : qr ∈ st.queries) (hq : qr.question = q) :
    insertOrIgnoreQuery st q now = st := by
  unfold insertOrIgnoreQuery
  rw [if_pos (List.any_eq_true.mpr ⟨qr, hqr, by simp [hq]⟩)]

theorem selectQueryId_append_fresh (st2 : Store) (base : List QueryRow) (qnew : QueryRow)
    (q : String) (hq2 : st2.queries = base ++ [qnew]) (hfresh : ∀ qr ∈ base, qr.question ≠ q)
    (hq : qnew.question = q) : selectQueryId st2 q = some qnew.id := by
  unfold selectQueryId
  rw [hq2, List.find?_append, find?_question_none base q hfresh,
    List.find?_cons_of_pos _ (by simp [hq])]
  rfl

theorem joinedAnswers_shape (st2 base : Store) (qnew : QueryRow) (extra : List AnswerRow)
    (q : String) (hQ : st2.queries = base.queries ++ [qnew])
    (hA : st2.answers = base.answers ++ extra)
    (hq : qnew.question = q) (hid : qnew.id = base.queries.length + 1)
    (hfresh : ∀ qr ∈ base.queries, qr.question ≠ q)
    (hfk : ∀ ar ∈ base.answers, ar.query_id ≤ base.queries.length)
    (hex : ∀ ar ∈ extra, ar.query_id = qnew.id) :
    joinedAnswers st2 q = extra := by
  unfold joinedAnswers
  rw [hA, List.filter_append]
  have hold : base.answers.filter
      (fun a => st2.queries.any (fun qr => a.query_id == qr.id && qr.question == q)) = [] := by
    rw [List.filter_eq_nil_iff]
    intro ar har hpred
    rcases List.any_eq_true.mp hpred with ⟨qr, hqr, hbeq⟩
    rw [hQ] at hqr
    simp only [Bool.and_eq_true, beq_iff_eq] at hbeq
    rcases List.mem_append.mp hqr with hbase | hnew
    · exact hfresh qr hbase hbeq.2
    · rcases List.mem_singleton.mp hnew with rfl
      have h1 := hbeq.1
      have h2 := hfk ar har
      omega
  have hkeep : extra.filter
      (fun a => st2.queries.any (fun qr => a.query_id == qr.id && qr.question == q)) = extra := by
    rw [List.filter_eq_self]
    intro ar har
    apply List.any_eq_true.mpr
    refine ⟨qnew, ?_, ?_⟩
    · rw [hQ]
      exact List.mem_append_right _ (List.mem_singleton_self _)
    · simp [hex ar har, hq]
  rw [hold, hkeep, List.nil_append]

theorem commitCycle_fresh_fields (st : Store) (q : String) (v : JValue)
    (w : List (String × String)) (a : String) (s : Option String) (now : Nat)
    (hfresh : ∀ qr ∈ st.queries, qr.question ≠ q) :
    (commitCycle st q v w a s now).queries
      = st.queries ++ [⟨st.queries.length + 1, q, now⟩] ∧
    (commitCycle st q v w a s now).answers
      = st.answers ++ [⟨st.answers.length + 1, st.queries.length + 1, a, s, now⟩] := by
  have habs := insertOrIgnoreQuery_absent st q now hfresh
  have hsel : selectQueryId (insertOrIgnoreQuery st q now) q
      = some (st.queries.length + 1) := by
    rw [habs]
    exact selectQueryId_append_fresh _ st.queries ⟨st.queries.length + 1, q, now⟩ q rfl hfresh rfl
  constructor
  · rw [commitCycle_queries, habs]
  · rw [commitCycle_answers, hsel, Option.getD_some]

/-- C10: the source URL is optional: `answers.source_url` has no `NOT NULL`
constraint, so recording a cycle with `source_url = None` commits, and the
subsequent answer lookup returns the answer text paired with an absent
source URL rather than failing. -/
theorem source_url_optional (st : Store) (q : String) (v : JValue)
    (w : List (String × String)) (a : String) (now : Nat)
    (hwf : Store.WF st) (hfresh : ∀ qr ∈ st.queries, qr.question ≠ q) :
    get_cached_answer (cache_qa_data st q v w a none now none).fst q = some (a, none) := by
  rw [cache_qa_data_no_fire st q v w a none now none (none_not_fires w.length)]
  have hf := commitCycle_fresh_fields st q v w a none now hfresh
  have hjoined : joinedAnswers (commitCycle st q v w a none now) q
      = [⟨st.answers.length + 1, st.queries.length + 1, a, none, now⟩] := by
    apply joinedAnswers_shape (commitCycle st q v w a none now) st
      ⟨st.queries.length + 1, q, now⟩ _ q hf.1 hf.2 rfl rfl hfresh
    · intro ar har
      exact (hwf.2.2.2.2.1 ar har).2
    · intro ar har
      rcases List.mem_singleton.mp har with rfl
      rfl
  unfold get_cached_answer
  rw [hjoined]
  rfl

/-- Witness for C10: on a fresh store, recording with an absent source URL
and looking the question up returns the answer with `None` as the URL. -/
theorem source_url_optional_witness :
    get_cached_answer (cache_qa_data Store.init "Q" JValue.null [] "A" none 3 none).fst "Q"
      = some ("A", none) :=
  source_url_optional Store.init "Q" JValue.null [] "A" 3 (by decide) (by decide)

theorem foldlPick_split (l : List AnswerRow) (init : AnswerRow) :
    (l.foldl (fun best r => if best.timestamp < r.timestamp then r else best) init = init ∧
      ∀ x ∈ l, x.timestamp ≤ init.timestamp) ∨
    ∃ l₁ r l₂, l = l₁ ++ r :: l₂ ∧
      l.foldl (fun best r => if best.timestamp < r.timestamp then r else best) init = r ∧
      init.timestamp < r.timestamp ∧ (∀ x ∈ l₁, x.timestamp < r.timestamp) ∧
      (∀ x ∈ l₂, x.timestamp ≤ r.timestamp) := by
  induction l generalizing init with
  | nil => exact Or.inl ⟨rfl, by simp⟩
  | cons a l ih =>
    rw [List.foldl_cons]
    by_cases h : init.timestamp < a.timestamp
    · rw [if_pos h]
      rcases ih a with ⟨heq, hle⟩ | ⟨l₁, r, l₂, hsplit, heq, hlt, h₁, h₂⟩
      · exact Or.inr ⟨[], a, l, by simp, heq, h, by simp, hle⟩
      · refine Or.inr ⟨a :: l₁, r, l₂, by rw [hsplit]; rfl, heq, lt_trans h hlt, ?_, h₂⟩
        intro x hx
        rcases List.mem_cons.mp hx with rfl | hx2
        · exact hlt
        · exact h₁ x hx2
    · rw [if_neg h]
      rcases ih init with ⟨heq, hle⟩ | ⟨l₁, r, l₂, hsplit, heq, hlt, h₁, h₂⟩
      · refine Or.inl ⟨heq, ?_⟩
        intro x hx
        rcases List.mem_cons.mp hx with rfl | hx2
        · omega
        · exact hle x hx2
      · refine Or.inr ⟨a :: l₁, r, l₂, by rw [hsplit]; rfl, heq, hlt, ?_, h₂⟩
        intro x hx
        rcases List.mem_cons.mp hx with rfl | hx2
        · omega
        · exact h₁ x hx2

theorem pickLatestFirst_split (l : List AnswerRow) (r : AnswerRow)
    (h : pickLatestFirst l = some r) :
    ∃ l₁ l₂, l = l₁ ++ r :: l₂ ∧ (∀ x ∈ l₁, x.timestamp < r.timestamp) ∧
      (∀ x ∈ l₂, x.timestamp ≤ r.timestamp) := by
  cases l with
  | nil => cases h
  | cons a t =>
    have hfold : t.foldl (fun best r => if best.timestamp < r.timestamp then r else best) a
        = r := by
      simpa [pickLatestFirst] using h
    rcases foldlPick_split t a with ⟨heq, hle⟩ | ⟨l₁, rr, l₂, hsplit, heq, hlt, h₁, h₂⟩
    · have hra : a = r := by rw [← hfold, heq]
      subst hra
      refine ⟨[], t, by simp, by simp, ?_⟩
      intro x hx
      exact hle x hx
    · have hrr : rr = r := by rw [← hfold, heq]
      subst hrr
      refine ⟨a :: l₁, l₂, by rw [hsplit]; rfl, ?_, h₂⟩
      intro x hx
      rcases List.mem_cons.mp hx with rfl | hx2
      · exact hlt
      · exact h₁ x hx2

/-- C1 (amended): `lookupAnswer` returns the joined answer row with the
latest creation time, but among rows tied at that latest time SQLite's
one-pass `ORDER BY timestamp DESC LIMIT 1` keeps the FIRST-scanned row, so
insertion-order ties resolve to the first one written, not the last; the
`recordCycle(Q,...,A1)`-then-`recordCycle(Q,...,A2)` example returns `A2`
exactly when the second call's creation time is strictly later. -/
theorem lookupAnswer_latest_first_tiebreak :
    (∀ st q a u, get_cached_answer st q = some (a, u) →
      ∃ l₁ row l₂, joinedAnswers st q = l₁ ++ row :: l₂ ∧
        row.answer_text = a ∧ row.source_url = u ∧
        (∀ x ∈ l₁, x.timestamp < row.timestamp) ∧
        (∀ x ∈ l₂, x.timestamp ≤ row.timestamp)) ∧
    (∀ st q v₁ w₁ a₁ s₁ now₁ v₂ w₂ a₂ s₂ now₂, Store.WF st →
      (∀ qr ∈ st.queries, qr.question ≠ q) → now₁ < now₂ →
      get_cached_answer
        ((cache_qa_data ((cache_qa_data st q v₁ w₁ a₁ s₁ now₁ none).fst)
          q v₂ w₂ a₂ s₂ now₂ none).fst) q = some (a₂, s₂)) := by
  constructor
  · intro st q a u h
    unfold get_cached_answer at h
    rcases Option.map_eq_some'.mp h with ⟨row, hpick, hrow⟩
    obtain ⟨l₁, l₂, hsplit, h₁, h₂⟩ := pickLatestFirst_split _ row hpick
    have hrow' : row.answer_text = a ∧ row.source_url = u := by
      have := hrow
      simp only [Prod.mk.injEq] at this
      exact this
    exact ⟨l₁, row, l₂, hsplit, hrow'.1, hrow'.2, h₁, h₂⟩
  · intro st q v₁ w₁ a₁ s₁ now₁ v₂ w₂ a₂ s₂ now₂ hwf hfresh hlt
    rw [cache_qa_data_no_fire st q v₁ w₁ a₁ s₁ now₁ none (none_not_fires w₁.length)]
    rw [cache_qa_data_no_fire _ q v₂ w₂ a₂ s₂ now₂ none (none_not_fires w₂.length)]
    have hf1 := commitCycle_fresh_fields st q v₁ w₁ a₁ s₁ now₁ hfresh
    have hpres : insertOrIgnoreQuery (commitCycle st q v₁ w₁ a₁ s₁ now₁) q now₂
        = commitCycle st q v₁ w₁ a₁ s₁ now₁ := by
      apply insertOrIgnoreQuery_present _ q now₂ ⟨st.queries.length + 1, q, now₁⟩
      · rw [hf1.1]
        exact List.mem_append_right _ (List.mem_singleton_self _)
      · rfl
    have hsel : selectQueryId (insertOrIgnoreQuery (commitCycle st q v₁ w₁ a₁ s₁ now₁) q now₂) q
        = some (st.queries.length + 1) := by
      rw [hpres]
      exact selectQueryId_append_fresh _ st.queries ⟨st.queries.length + 1, q, now₁⟩ q
        hf1.1 hfresh rfl
    have hQ2 : (commitCycle (commitCycle st q v₁ w₁ a₁ s₁ now₁) q v₂ w₂ a₂ s₂ now₂).queries
        = st.queries ++ [⟨st.queries.length + 1, q, now₁⟩] := by
      rw [commitCycle_queries, hpres, hf1.1]
    have hA2 : (commitCycle (commitCycle st q v₁ w₁ a₁ s₁ now₁) q v₂ w₂ a₂ s₂ now₂).answers
        = st.answers ++
          [⟨st.answers.length + 1, st.queries.length + 1, a₁, s₁, now₁⟩,
           ⟨st.answers.length + 2, st.queries.length + 1, a₂, s₂, now₂⟩] := by
      rw [commitCycle_answers, hsel, Option.getD_some, hf1.2]
      simp
    have hjoined : joinedAnswers
        (commitCycle (commitCycle st q v₁ w₁ a₁ s₁ now₁) q v₂ w₂ a₂ s₂ now₂) q
        = [⟨st.answers.length + 1, st.queries.length + 1, a₁, s₁, now₁⟩,
           ⟨st.answers.length + 2, st.queries.length + 1, a₂, s₂, now₂⟩] := by
      apply joinedAnswers_shape _ st ⟨st.queries.length + 1, q, now₁⟩ _ q hQ2 hA2 rfl rfl hfresh
      · intro ar har
        exact (hwf.2.2.2.2.1 ar har).2
      · intro ar har
        rcases List.mem_cons.mp har with rfl | har2
        · rfl
        · rcases List.mem_singleton.mp har2 with rfl
          rfl
    unfold get_cached_answer
    rw [hjoined]
    simp [pickLatestFirst, hlt]

/-- Witness for C1: on a fresh store, two cycles at strictly increasing
clock seconds make the lookup return the second answer. -/
theorem lookupAnswer_latest_first_tiebreak_witness :
    get_cached_answer
      ((cache_qa_data ((cache_qa_data Store.init "Q" JValue.null [] "A1" (some "u1") 1 none).fst)
        "Q" JValue.null [] "A2" (some "u2") 2 none).fst) "Q" = some ("A2", some "u2") :=
  lookupAnswer_latest_first_tiebreak.2 Store.init "Q" JValue.null [] "A1" (some "u1") 1
    JValue.null [] "A2" (some "u2") 2 (by decide) (by decide) (by decide)

/-- C1 counterexample: two completed cycles for the same question within
one clock second get equal `CURRENT_TIMESTAMP` values; `ORDER BY
a.timestamp DESC LIMIT 1` then returns the first-written answer "A1", not
"A2" as the claim states for the last-written row. -/
theorem lookupAnswer_tiebreak_counterexample :
    get_cached_answer
      ((cache_qa_data ((cache_qa_data Store.init "Q" JValue.null [] "A1" (some "u1") 5 none).fst)
        "Q" JValue.null [] "A2" (some "u2") 5 none).fst) "Q" = some ("A1", some "u1") ∧
    get_cached_answer
      ((cache_qa_data ((cache_qa_data Store.init "Q" JValue.null [] "A1" (some "u1") 5 none).fst)
        "Q" JValue.null [] "A2" (some "u2") 5 none).fst) "Q" ≠ some ("A2", some "u2") := by
  constructor <;> decide

/-! ### JSON round trip: digits and numbers -/

theorem char_valid_range (c : Char) :
    c.toNat < 55296 ∨ (57343 < c.toNat ∧ c.toNat < 1114112) := by
  rcases c.valid with h | h
  · exact Or.inl h
  · exact Or.inr h

theorem digitChar_toNat (d : Nat) (h : d < 10) : (digitChar d).toNat = 48 + d := by
  interval_cases d <;> decide

theorem natDigitsRev_all_digits (n : Nat) :
    ∀ c ∈ natDigitsRev n, 48 ≤ c.toNat ∧ c.toNat ≤ 57 := by
  induction n using Nat.strong_induction_on with
  | _ n ih =>
    intro c hc
    rw [natDigitsRev] at hc
    split at hc
    · cases hc
    · next hne =>
      rcases List.mem_cons.mp hc with rfl | hc2
      · rw [digitChar_toNat _ (Nat.mod_lt _ (by omega))]
        omega
      · exact ih (n / 10) (Nat.div_lt_self (by omega) (by omega)) c hc2

theorem natDigitsRev_val (n : Nat) :
    ((natDigitsRev n).reverse).foldl (fun a c => a * 10 + (c.toNat - 48)) 0 = n := by
  induction n using Nat.strong_induction_on with
  | _ n ih =>
    rw [natDigitsRev]
    split
    · next h => rw [h]; rfl
    · next h =>
      rw [List.reverse_cons, List.foldl_append,
        ih (n / 10) (Nat.div_lt_self (by omega) (by omega))]
      simp only [List.foldl_cons, List.foldl_nil]
      rw [digitChar_toNat _ (Nat.mod_lt _ (by omega))]
      omega

theorem natDigitsRev_ne_nil (n : Nat) (h : n ≠ 0) : natDigitsRev n ≠ [] := by
  rw [natDigitsRev]
  split
  · next h0 => exact absurd h0 h
  · simp

theorem parseDigitsAux_nodigit (rest : List Char) (acc : Nat)
    (h : ∀ c, rest.head? = some c → isDigitChar c = false) :
    parseDigitsAux rest acc = (acc, rest) := by
  cases rest with
  | nil => rfl
  | cons c t =>
    unfold parseDigitsAux
    rw [if_neg (by simp [h c rfl])]

theorem parseDigitsAux_digits (ds : List Char) (rest : List Char) (acc : Nat)
    (hds : ∀ c ∈ ds, 48 ≤ c.toNat ∧ c.toNat ≤ 57)
    (hrest : ∀ c, rest.head? = some c → isDigitChar c = false) :
    parseDigitsAux (ds ++ rest) acc
      = (ds.foldl (fun a c => a * 10 + (c.toNat - 48)) acc, rest) := by
  induction ds generalizing acc with
  | nil => simpa using parseDigitsAux_nodigit rest acc hrest
  | cons c t ih =>
    have hc := hds c (List.mem_cons_self c t)
    rw [List.cons_append]
    unfold parseDigitsAux
    rw [if_pos (by simp only [isDigitChar, Bool.and_eq_true, decide_eq_true_eq]; omega),
      List.foldl_cons]
    exact ih _ (fun c2 h2 => hds c2 (List.mem_cons_of_mem c h2))

theorem natToChars_spec (m : Nat) (rest : List Char)
    (hrest : ∀ c, rest.head? = some c → isDigitChar c = false) :
    ∃ c cs, natToChars m = c :: cs ∧ 48 ≤ c.toNat ∧ c.toNat ≤ 57 ∧
      parseDigitsAux (cs ++ rest) (c.toNat - 48) = (m, rest) := by
  unfold natToChars
  split
  · next h0 =>
    refine ⟨'0', [], rfl, by decide, by decide, ?_⟩
    rw [List.nil_append, parseDigitsAux_nodigit rest _ hrest, h0]
    rfl
  · next h0 =>
    rcases hsh : (natDigitsRev m).reverse with _ | ⟨c, cs⟩
    · exact absurd (by simpa using congrArg List.reverse hsh)
        (natDigitsRev_ne_nil m h0)
    · have hmem : ∀ x ∈ c :: cs, 48 ≤ x.toNat ∧ x.toNat ≤ 57 := by
        intro x hx
        exact natDigitsRev_all_digits m x (by
          have : x ∈ (natDigitsRev m).reverse := by rw [hsh]; exact hx
          simpa using this)
      have hc := hmem c (List.mem_cons_self c cs)
      refine ⟨c, cs, rfl, hc.1, hc.2, ?_⟩
      rw [parseDigitsAux_digits cs rest _
        (fun x hx => hmem x (List.mem_cons_of_mem c hx)) hrest]
      have hval : (c :: cs).foldl (fun a c => a * 10 + (c.toNat - 48)) 0 = m := by
        rw [← hsh]
        exact natDigitsRev_val m
      rw [List.foldl_cons] at hval
      have hz : (0 * 10 + (c.toNat - 48)) = c.toNat - 48 := by omega
      rw [hz] at hval
      rw [hval]

theorem parseNumber_neg_cons (c : Char) (rest : List Char) :
    parseNumber ('-' :: c :: rest) = if isDigitChar c then
      (let p := parseDigitsAux rest (c.toNat - 48); some (-(p.1 : Int), p.2))
    else none := rfl

theorem parseNumber_pos_cons (c : Char) (rest : List Char) (h : ¬ c = '-') :
    parseNumber (c :: rest) = if isDigitChar c then
      (let p := parseDigitsAux rest (c.toNat - 48); some ((p.1 : Int), p.2))
    else none := by
  rw [parseNumber.eq_def]
  dsimp only
  rw [if_neg h]

theorem parseNumber_print (n : Int) (rest : List Char)
    (hrest : ∀ c, rest.head? = some c → isDigitChar c = false) :
    parseNumber (intToChars n ++ rest) = some (n, rest) := by
  unfold intToChars
  split
  · next hneg =>
    obtain ⟨c, cs, hsh, h48, h57, hparse⟩ := natToChars_spec n.natAbs rest hrest
    rw [hsh]
    simp only [List.cons_append]
    rw [parseNumber_neg_cons,
      if_pos (by simp only [isDigitChar, Bool.and_eq_true, decide_eq_true_eq]; omega)]
    simp only [hparse]
    have hn : -((n.natAbs : Nat) : Int) = n := by omega
    rw [hn]
  · next hpos =>
    obtain ⟨c, cs, hsh, h48, h57, hparse⟩ := natToChars_spec n.toNat rest hrest
    rw [hsh]
    simp only [List.cons_append]
    rw [parseNumber_pos_cons _ _ (by intro he; rw [he] at h48; exact absurd h48 (by decide)),
      if_pos (by simp only [isDigitChar, Bool.and_eq_true, decide_eq_true_eq]; omega)]
    simp only [hparse]
    have hn : ((n.toNat : Nat) : Int) = n := by omega
    rw [hn]

theorem intToChars_head (n : Int) :
    ∃ c cs, intToChars n = c :: cs ∧ (c.toNat = 45 ∨ (48 ≤ c.toNat ∧ c.toNat ≤ 57)) := by
  unfold intToChars
  split
  · exact ⟨'-', natToChars n.natAbs, rfl, Or.inl (by decide)⟩
  · obtain ⟨c, cs, hsh, h48, h57, _⟩ := natToChars_spec n.toNat [] (by intro c hc; cases hc)
    exact ⟨c, cs, hsh, Or.inr ⟨h48, h57⟩⟩

/-! ### JSON round trip: string escaping -/

theorem hexVal_hexDigitChar (d : Nat) (h : d < 16) : hexVal? (hexDigitChar d) = some d := by
  interval_cases d <;> decide

theorem psb_quote (r : List Char) : parseStringBody ('"' :: r) = some ([], r) := rfl

theorem psb_plain (c : Char) (r : List Char) (h1 : ¬ c = '"') (h2 : ¬ c = '\\') :
    parseStringBody (c :: r) = (parseStringBody r).map (fun p => (c :: p.1, p.2)) := by
  rw [parseStringBody]
  rw [if_neg h1, if_neg h2]

theorem psb_backslash (r : List Char) : parseStringBody ('\\' :: r) = parseEscape r := by
  rw [parseStringBody]
  rw [if_neg (by decide), if_pos rfl]

theorem parseU_eval (h1 h2 h3 h4 : Char) (r : List Char) (d1 d2 d3 d4 : Nat)
    (e1 : hexVal? h1 = some d1) (e2 : hexVal? h2 = some d2)
    (e3 : hexVal? h3 = some d3) (e4 : hexVal? h4 = some d4) :
    parseU (h1 :: h2 :: h3 :: h4 :: r)
      = (if 55296 ≤ ((d1 * 16 + d2) * 16 + d3) * 16 + d4 ∧
            ((d1 * 16 + d2) * 16 + d3) * 16 + d4 ≤ 56319 then
          parseLowSurrogate (((d1 * 16 + d2) * 16 + d3) * 16 + d4) r
        else if 56320 ≤ ((d1 * 16 + d2) * 16 + d3) * 16 + d4 ∧
            ((d1 * 16 + d2) * 16 + d3) * 16 + d4 ≤ 57343 then none
        else (parseStringBody r).map
          (fun p => (Char.ofNat (((d1 * 16 + d2) * 16 + d3) * 16 + d4) :: p.1, p.2))) := by
  rw [parseU]
  rw [e1, e2, e3, e4]

theorem parseLowSurrogate_eval (hi : Nat) (g1 g2 g3 g4 : Char) (r : List Char)
    (f1 f2 f3 f4 : Nat)
    (e5 : hexVal? g1 = some f1) (e6 : hexVal? g2 = some f2)
    (e7 : hexVal? g3 = some f3) (e8 : hexVal? g4 = some f4)
    (hlo : 56320 ≤ ((f1 * 16 + f2) * 16 + f3) * 16 + f4 ∧
      ((f1 * 16 + f2) * 16 + f3) * 16 + f4 ≤ 57343) :
    parseLowSurrogate hi ('\\' :: 'u' :: g1 :: g2 :: g3 :: g4 :: r)
      = (parseStringBody r).map
          (fun p => (Char.ofNat (65536 + (hi - 55296) * 1024
            + ((((f1 * 16 + f2) * 16 + f3) * 16 + f4) - 56320)) :: p.1, p.2)) := by
  rw [parseLowSurrogate]
  rw [if_pos (by constructor <;> rfl)]
  rw [e5, e6, e7, e8]
  dsimp only
  rw [if_pos hlo]

theorem pe_quote (r : List Char) :
    parseEscape ('"' :: r) = (parseStringBody r).map (fun p => ('"' :: p.1, p.2)) := by
  simp [parseEscape]

theorem pe_backslash (r : List Char) :
    parseEscape ('\\' :: r) = (parseStringBody r).map (fun p => ('\\' :: p.1, p.2)) := by
  simp [parseEscape]

theorem pe_b (r : List Char) :
    parseEscape ('b' :: r) = (parseStringBody r).map (fun p => (Char.ofNat 8 :: p.1, p.2)) := by
  simp [parseEscape]

theorem pe_t (r : List Char) :
    parseEscape ('t' :: r) = (parseStringBody r).map (fun p => (Char.ofNat 9 :: p.1, p.2)) := by
  simp [parseEscape]

theorem pe_n (r : List Char) :
    parseEscape ('n' :: r) = (parseStringBody r).map (fun p => (Char.ofNat 10 :: p.1, p.2)) := by
  simp [parseEscape]

theorem pe_f (r : List Char) :
    parseEscape ('f' :: r) = (parseStringBody r).map (fun p => (Char.ofNat 12 :: p.1, p.2)) := by
  simp [parseEscape]

theorem pe_r (r : List Char) :
    parseEscape ('r' :: r) = (parseStringBody r).map (fun p => (Char.ofNat 13 :: p.1, p.2)) := by
  simp [parseEscape]

theorem pe_u (r : List Char) : parseEscape ('u' :: r) = parseU r := by
  simp [parseEscape]

theorem parseStringBody_esc (s : List Char) (rest : List Char) :
    parseStringBody (escString s ++ ('"' :: rest)) = some (s, rest) := by
  induction s with
  | nil =>
    rw [show escString [] = [] from rfl, List.nil_append, psb_quote]
  | cons c s ih =>
    have hesc : escString (c :: s) = escChar c ++ escString s := by
      simp [escString]
    rw [hesc, List.append_assoc]
    by_cases h1 : c = '"'
    · subst h1
      rw [show escChar '"' = ['\\', '"'] from rfl]
      simp only [List.cons_append, List.nil_append]
      rw [psb_backslash, pe_quote, ih]
      rfl
    by_cases h2 : c = '\\'
    · subst h2
      rw [show escChar '\\' = ['\\', '\\'] from rfl]
      simp only [List.cons_append, List.nil_append]
      rw [psb_backslash, pe_backslash, ih]
      rfl
    by_cases h3 : c.toNat = 8
    · have hec : escChar c = ['\\', 'b'] := by
        unfold escChar
        rw [if_neg h1, if_neg h2, if_pos h3]
      rw [hec]
      simp only [List.cons_append, List.nil_append]
      rw [psb_backslash, pe_b, ih]
      rw [show Char.ofNat 8 = c from h3 ▸ Char.ofNat_toNat c]
      rfl
    by_cases h4 : c.toNat = 9
    · have hec : escChar c = ['\\', 't'] := by
        unfold escChar
        rw [if_neg h1, if_neg h2, if_neg h3, if_pos h4]
      rw [hec]
      simp only [List.cons_append, List.nil_append]
      rw [psb_backslash, pe_t, ih]
      rw [show Char.ofNat 9 = c from h4 ▸ Char.ofNat_toNat c]
      rfl
    by_cases h5 : c.toNat = 10
    · have hec : escChar c = ['\\', 'n'] := by
        unfold escChar
        rw [if_neg h1, if_neg h2, if_neg h3, if_neg h4, if_pos h5]
      rw [hec]
      simp only [List.cons_append, List.nil_append]
      rw [psb_backslash, pe_n, ih]
      rw [show Char.ofNat 10 = c from h5 ▸ Char.ofNat_toNat c]
      rfl
    by_cases h6 : c.toNat = 12
    · have hec : escChar c = ['\\', 'f'] := by
        unfold escChar
        rw [if_neg h1, if_neg h2, if_neg h3, if_neg h4, if_neg h5, if_pos h6]
      rw [hec]
      simp only [List.cons_append, List.nil_append]
      rw [psb_backslash, pe_f, ih]
      rw [show Char.ofNat 12 = c from h6 ▸ Char.ofNat_toNat c]
      rfl
    by_cases h7 : c.toNat = 13
    · have hec : escChar c = ['\\', 'r'] := by
        unfold escChar
        rw [if_neg h1, if_neg h2, if_neg h3, if_neg h4, if_neg h5, if_neg h6, if_pos h7]
      rw [hec]
      simp only [List.cons_append, List.nil_append]
      rw [psb_backslash, pe_r, ih]
      rw [show Char.ofNat 13 = c from h7 ▸ Char.ofNat_toNat c]
      rfl
    by_cases h8 : c.toNat < 32 ∨ 126 < c.toNat
    · have hval := char_valid_range c
      by_cases h9 : c.toNat < 65536
      · have hec : escChar c = hexEsc4 c.toNat := by
          unfold escChar
          rw [if_neg h1, if_neg h2, if_neg h3, if_neg h4, if_neg h5, if_neg h6, if_neg h7,
            if_pos h8, if_pos h9]
        rw [hec]
        rw [show hexEsc4 c.toNat = ['\\', 'u', hexDigitChar (c.toNat / 4096),
          hexDigitChar (c.toNat / 256 % 16), hexDigitChar (c.toNat / 16 % 16),
          hexDigitChar (c.toNat % 16)] from rfl]
        simp only [List.cons_append, List.nil_append]
        rw [psb_backslash, pe_u]
        rw [parseU_eval _ _ _ _ _ _ _ _ _
          (hexVal_hexDigitChar _ (by omega))
          (hexVal_hexDigitChar _ (Nat.mod_lt _ (by omega)))
          (hexVal_hexDigitChar _ (Nat.mod_lt _ (by omega)))
          (hexVal_hexDigitChar _ (Nat.mod_lt _ (by omega)))]
        have hm : ((c.toNat / 4096 * 16 + c.toNat / 256 % 16) * 16 + c.toNat / 16 % 16) * 16
            + c.toNat % 16 = c.toNat := by omega
        rw [hm, if_neg (by omega), if_neg (by omega), ih, Char.ofNat_toNat]
        rfl
      · have hec : escChar c = hexEsc4 (55296 + (c.toNat - 65536) / 1024)
            ++ hexEsc4 (56320 + (c.toNat - 65536) % 1024) := by
          unfold escChar
          rw [if_neg h1, if_neg h2, if_neg h3, if_neg h4, if_neg h5, if_neg h6, if_neg h7,
            if_pos h8, if_neg h9]
        have hhi1 : (c.toNat - 65536) / 1024 < 1024 := by omega
        have hlo1 : (c.toNat - 65536) % 1024 < 1024 := Nat.mod_lt _ (by omega)
        rw [hec]
        rw [show hexEsc4 (55296 + (c.toNat - 65536) / 1024)
          = ['\\', 'u', hexDigitChar ((55296 + (c.toNat - 65536) / 1024) / 4096),
             hexDigitChar ((55296 + (c.toNat - 65536) / 1024) / 256 % 16),
             hexDigitChar ((55296 + (c.toNat - 65536) / 1024) / 16 % 16),
             hexDigitChar ((55296 + (c.toNat - 65536) / 1024) % 16)] from rfl]
        rw [show hexEsc4 (56320 + (c.toNat - 65536) % 1024)
          = ['\\', 'u', hexDigitChar ((56320 + (c.toNat - 65536) % 1024) / 4096),
             hexDigitChar ((56320 + (c.toNat - 65536) % 1024) / 256 % 16),
             hexDigitChar ((56320 + (c.toNat - 65536) % 1024) / 16 % 16),
             hexDigitChar ((56320 + (c.toNat - 65536) % 1024) % 16)] from rfl]
        simp only [List.cons_append, List.nil_append]
        rw [psb_backslash, pe_u]
        rw [parseU_eval _ _ _ _ _ _ _ _ _
          (hexVal_hexDigitChar _ (by omega))
          (hexVal_hexDigitChar _ (Nat.mod_lt _ (by omega)))
          (hexVal_hexDigitChar _ (Nat.mod_lt _ (by omega)))
          (hexVal_hexDigitChar _ (Nat.mod_lt _ (by omega)))]
        have hmhi : (((55296 + (c.toNat - 65536) / 1024) / 4096 * 16
            + (55296 + (c.toNat - 65536) / 1024) / 256 % 16) * 16
            + (55296 + (c.toNat - 65536) / 1024) / 16 % 16) * 16
            + (55296 + (c.toNat - 65536) / 1024) % 16
            = 55296 + (c.toNat - 65536) / 1024 := by omega
        rw [hmhi, if_pos (by omega)]
        rw [parseLowSurrogate_eval _ _ _ _ _ _ _ _ _ _
          (hexVal_hexDigitChar _ (by omega))
          (hexVal_hexDigitChar _ (Nat.mod_lt _ (by omega)))
          (hexVal_hexDigitChar _ (Nat.mod_lt _ (by omega)))
          (hexVal_hexDigitChar _ (Nat.mod_lt _ (by omega)))
          (by constructor <;> omega)]
        have hmlo : (((56320 + (c.toNat - 65536) % 1024) / 4096 * 16
            + (56320 + (c.toNat - 65536) % 1024) / 256 % 16) * 16
            + (56320 + (c.toNat - 65536) % 1024) / 16 % 16) * 16
            + (56320 + (c.toNat - 65536) % 1024) % 16
            = 56320 + (c.toNat - 65536) % 1024 := by omega
        rw [hmlo]
        have hcomb : 65536 + (55296 + (c.toNat - 65536) / 1024 - 55296) * 1024
            + (56320 + (c.toNat - 65536) % 1024 - 56320) = c.toNat := by omega
        rw [hcomb, ih, Char.ofNat_toNat]
        rfl
    · have hec : escChar c = [c] := by
        unfold escChar
        rw [if_neg h1, if_neg h2, if_neg h3, if_neg h4, if_neg h5, if_neg h6, if_neg h7,
          if_neg h8]
      rw [hec]
      simp only [List.cons_append, List.nil_append]
      rw [psb_plain c _ h1 h2, ih]
      rfl

/-! ### JSON round trip: values -/

theorem pv_null (f : Nat) (r : List Char) :
    parseValue (f + 1) ('n' :: 'u' :: 'l' :: 'l' :: r) = some (.null, r) := by
  simp [parseValue, parseNullTail]

theorem pv_true (f : Nat) (r : List Char) :
    parseValue (f + 1) ('t' :: 'r' :: 'u' :: 'e' :: r) = some (.bool true, r) := by
  simp [parseValue, parseTrueTail]

theorem pv_false (f : Nat) (r : List Char) :
    parseValue (f + 1) ('f' :: 'a' :: 'l' :: 's' :: 'e' :: r) = some (.bool false, r) := by
  simp [parseValue, parseFalseTail]

theorem pv_str (f : Nat) (r : List Char) :
    parseValue (f + 1) ('"' :: r)
      = (parseStringBody r).map (fun p => (.str (String.mk p.1), p.2)) := by
  simp [parseValue]

theorem pv_arr (f : Nat) (r : List Char) :
    parseValue (f + 1) ('[' :: r) = (parseArrayBody f r).map (fun p => (.arr p.1, p.2)) := by
  simp [parseValue]

theorem pv_obj (f : Nat) (r : List Char) :
    parseValue (f + 1) ('{' :: r) = (parseObjectBody f r).map (fun p => (.obj p.1, p.2)) := by
  simp [parseValue]

theorem pv_num (f : Nat) (c : Char) (r : List Char)
    (hc : c.toNat = 45 ∨ (48 ≤ c.toNat ∧ c.toNat ≤ 57)) :
    parseValue (f + 1) (c :: r) = (parseNumber (c :: r)).map (fun p => (.num p.1, p.2)) := by
  rw [parseValue]
  rw [if_neg (by intro he; rw [he] at hc; revert hc; decide),
    if_neg (by intro he; rw [he] at hc; revert hc; decide),
    if_neg (by intro he; rw [he] at hc; revert hc; decide),
    if_neg (by intro he; rw [he] at hc; revert hc; decide),
    if_neg (by intro he; rw [he] at hc; revert hc; decide),
    if_neg (by intro he; rw [he] at hc; revert hc; decide)]

theorem pab_nil (f : Nat) (r : List Char) :
    parseArrayBody (f + 1) (']' :: r) = some (.nil, r) := by
  simp [parseArrayBody]

theorem pab_cons (f : Nat) (c : Char) (r : List Char) (hc : ¬ c = ']')
    (v : JValue) (r1 : List Char) (hv : parseValue f (c :: r) = some (v, r1))
    (tl : JArray) (r2 : List Char) (ht : parseArraySep f r1 = some (tl, r2)) :
    parseArrayBody (f + 1) (c :: r) = some (.cons v tl, r2) := by
  rw [parseArrayBody]
  rw [if_neg hc]
  simp only [hv, ht]

theorem pas_nil (f : Nat) (r : List Char) :
    parseArraySep (f + 1) (']' :: r) = some (.nil, r) := by
  simp [parseArraySep]

theorem pas_cons (f : Nat) (r : List Char) (v : JValue) (r1 : List Char)
    (tl : JArray) (r2 : List Char)
    (hv : parseValue f r = some (v, r1)) (ht : parseArraySep f r1 = some (tl, r2)) :
    parseArraySep (f + 1) (',' :: ' ' :: r) = some (.cons v tl, r2) := by
  simp [parseArraySep, hv, ht]

theorem pob_nil (f : Nat) (r : List Char) :
    parseObjectBody (f + 1) ('}' :: r) = some (.nil, r) := by
  simp [parseObjectBody]

theorem pob_cons (f : Nat) (r r2 : List Char) (ks : List Char) (v : JValue) (r3 : List Char)
    (tl : JObject) (r4 : List Char)
    (hk : parseStringBody r = some (ks, ':' :: ' ' :: r2))
    (hv : parseValue f r2 = some (v, r3))
    (ht : parseObjectSep f r3 = some (tl, r4)) :
    parseObjectBody (f + 1) ('"' :: r) = some (.cons (String.mk ks) v tl, r4) := by
  simp [parseObjectBody, hk, hv, ht]

theorem posep_nil (f : Nat) (r : List Char) :
    parseObjectSep (f + 1) ('}' :: r) = some (.nil, r) := by
  simp [parseObjectSep]

theorem posep_cons (f : Nat) (r r2 : List Char) (ks : List Char) (v : JValue) (r3 : List Char)
    (tl : JObject) (r4 : List Char)
    (hk : parseStringBody r = some (ks, ':' :: ' ' :: r2))
    (hv : parseValue f r2 = some (v, r3))
    (ht : parseObjectSep f r3 = some (tl, r4)) :
    parseObjectSep (f + 1) (',' :: ' ' :: '"' :: r) = some (.cons (String.mk ks) v tl, r4) := by
  simp [parseObjectSep, hk, hv, ht]

theorem printValue_shape (v : JValue) :
    ∃ c cs, printValue v = c :: cs ∧
      (c.toNat = 45 ∨ (48 ≤ c.toNat ∧ c.toNat ≤ 57) ∨ c.toNat = 110 ∨ c.toNat = 116 ∨
       c.toNat = 102 ∨ c.toNat = 34 ∨ c.toNat = 91 ∨ c.toNat = 123) := by
  cases v with
  | null => exact ⟨'n', _, rfl, by decide⟩
  | bool b =>
    cases b
    · exact ⟨'f', _, rfl, by decide⟩
    · exact ⟨'t', _, rfl, by decide⟩
  | num n =>
    obtain ⟨c, cs, hsh, hcls⟩ := intToChars_head n
    refine ⟨c, cs, ?_, ?_⟩
    · rw [show printValue (.num n) = intToChars n from rfl, hsh]
    · rcases hcls with h | h
      · exact Or.inl h
      · exact Or.inr (Or.inl h)
  | str s => exact ⟨'"', _, rfl, by decide⟩
  | arr l => exact ⟨'[', _, rfl, by decide⟩
  | obj o => exact ⟨'{', _, rfl, by decide⟩

theorem head_nondigit_of_shape {c0 : Char} {cs : List Char} (l rest : List Char)
    (hl : l = c0 :: cs) (hnd : isDigitChar c0 = false) :
    ∀ c, (l ++ rest).head? = some c → isDigitChar c = false := by
  intro c h
  rw [hl] at h
  simp only [List.cons_append, List.head?_cons, Option.some.injEq] at h
  rw [← h]
  exact hnd

theorem printArraySep_shape (tl : JArray) :
    ∃ c cs, printArraySep tl = c :: cs ∧ isDigitChar c = false := by
  cases tl
  · exact ⟨']', [], rfl, by decide⟩
  · exact ⟨',', _, rfl, by decide⟩

theorem printObjectSep_shape (tl : JObject) :
    ∃ c cs, printObjectSep tl = c :: cs ∧ isDigitChar c = false := by
  cases tl
  · exact ⟨'}', [], rfl, by decide⟩
  · exact ⟨',', _, rfl, by decide⟩

theorem jsizeV_pos (v : JValue) : 1 ≤ jsizeV v := by
  cases v <;> simp [jsizeV]

theorem jsizeA_pos (l : JArray) : 1 ≤ jsizeA l := by
  cases l <;> simp [jsizeA]

theorem jsizeO_pos (o : JObject) : 1 ≤ jsizeO o := by
  cases o <;> simp [jsizeO]

mutual

theorem parseValue_print (v : JValue) (rest : List Char) (fuel : Nat)
    (hfuel : jsizeV v ≤ fuel)
    (hrest : ∀ c, rest.head? = some c → isDigitChar c = false) :
    parseValue fuel (printValue v ++ rest) = some (v, rest) := by
  cases fuel with
  | zero => exact absurd (le_trans (jsizeV_pos v) hfuel) (by omega)
  | succ f =>
    cases v with
    | null =>
      rw [show printValue .null ++ rest = 'n' :: 'u' :: 'l' :: 'l' :: rest from rfl, pv_null]
    | bool b =>
      cases b
      · rw [show printValue (.bool false) ++ rest
          = 'f' :: 'a' :: 'l' :: 's' :: 'e' :: rest from rfl, pv_false]
      · rw [show printValue (.bool true) ++ rest
          = 't' :: 'r' :: 'u' :: 'e' :: rest from rfl, pv_true]
    | num n =>
      obtain ⟨c, cs, hsh, hcls⟩ := intToChars_head n
      rw [show printValue (.num n) = intToChars n from rfl, hsh, List.cons_append,
        pv_num f c _ hcls, ← List.cons_append, ← hsh, parseNumber_print n rest hrest]
      rfl
    | str s =>
      rw [show printValue (.str s) ++ rest
        = '"' :: (escString s.data ++ ('"' :: rest)) by
          show ('"' :: (escString s.data ++ ['"'])) ++ rest = _
          simp [List.append_assoc], pv_str, parseStringBody_esc]
      rfl
    | arr l =>
      rw [show printValue (.arr l) ++ rest = '[' :: (printArrayBody l ++ rest) from rfl,
        pv_arr, parseArrayBody_print l rest f (by
          have := hfuel
          simp only [jsizeV] at this
          omega)]
      rfl
    | obj o =>
      rw [show printValue (.obj o) ++ rest = '{' :: (printObjectBody o ++ rest) from rfl,
        pv_obj, parseObjectBody_print o rest f (by
          have := hfuel
          simp only [jsizeV] at this
          omega)]
      rfl

theorem parseArrayBody_print (l : JArray) (rest : List Char) (fuel : Nat)
    (hfuel : jsizeA l ≤ fuel) :
    parseArrayBody fuel (printArrayBody l ++ rest) = some (l, rest) := by
  cases fuel with
  | zero => exact absurd (le_trans (jsizeA_pos l) hfuel) (by omega)
  | succ f =>
    cases l with
    | nil => rw [show printArrayBody .nil ++ rest = ']' :: rest from rfl, pab_nil]
    | cons v tl =>
      have hfv : jsizeV v ≤ f := by
        have h1 := Nat.le_max_left (jsizeV v) (jsizeA tl)
        simp only [jsizeA] at hfuel
        omega
      have hft : jsizeA tl ≤ f := by
        have h1 := Nat.le_max_right (jsizeV v) (jsizeA tl)
        simp only [jsizeA] at hfuel
        omega
      obtain ⟨c, cs, hcs, hcls⟩ := printValue_shape v
      obtain ⟨c0, cs0, hc0, hnd0⟩ := printArraySep_shape tl
      have hne : ¬ c = ']' := by
        intro he
        rw [he] at hcls
        revert hcls
        decide
      have hbody : printArrayBody (.cons v tl) ++ rest
          = c :: (cs ++ (printArraySep tl ++ rest)) := by
        show (printValue v ++ printArraySep tl) ++ rest = _
        rw [hcs]
        simp [List.append_assoc]
      have hv : parseValue f (c :: (cs ++ (printArraySep tl ++ rest)))
          = some (v, printArraySep tl ++ rest) := by
        rw [show c :: (cs ++ (printArraySep tl ++ rest))
          = (c :: cs) ++ (printArraySep tl ++ rest) from rfl, ← hcs]
        exact parseValue_print v (printArraySep tl ++ rest) f hfv
          (head_nondigit_of_shape _ rest hc0 hnd0)
      have ht : parseArraySep f (printArraySep tl ++ rest) = some (tl, rest) :=
        parseArraySep_print tl rest f hft
      rw [hbody, pab_cons f c _ hne v _ hv tl rest ht]

theorem parseArraySep_print (l : JArray) (rest : List Char) (fuel : Nat)
    (hfuel : jsizeA l ≤ fuel) :
    parseArraySep fuel (printArraySep l ++ rest) = some (l, rest) := by
  cases fuel with
  | zero => exact absurd (le_trans (jsizeA_pos l) hfuel) (by omega)
  | succ f =>
    cases l with
    | nil => rw [show printArraySep .nil ++ rest = ']' :: rest from rfl, pas_nil]
    | cons v tl =>
      have hfv : jsizeV v ≤ f := by
        have h1 := Nat.le_max_left (jsizeV v) (jsizeA tl)
        simp only [jsizeA] at hfuel
        omega
      have hft : jsizeA tl ≤ f := by
        have h1 := Nat.le_max_right (jsizeV v) (jsizeA tl)
        simp only [jsizeA] at hfuel
        omega
      obtain ⟨c0, cs0, hc0, hnd0⟩ := printArraySep_shape tl
      have hbody : printArraySep (.cons v tl) ++ rest
          = ',' :: ' ' :: (printValue v ++ (printArraySep tl ++ rest)) := by
        show (',' :: ' ' :: (printValue v ++ printArraySep tl)) ++ rest = _
        simp [List.append_assoc]
      rw [hbody, pas_cons f _ v (printArraySep tl ++ rest) tl rest
        (parseValue_print v (printArraySep tl ++ rest) f hfv
          (head_nondigit_of_shape _ rest hc0 hnd0))
        (parseArraySep_print tl rest f hft)]

theorem parseObjectBody_print (o : JObject) (rest : List Char) (fuel : Nat)
    (hfuel : jsizeO o ≤ fuel) :
    parseObjectBody fuel (printObjectBody o ++ rest) = some (o, rest) := by
  cases fuel with
  | zero => exact absurd (le_trans (jsizeO_pos o) hfuel) (by omega)
  | succ f =>
    cases o with
    | nil => rw [show printObjectBody .nil ++ rest = '}' :: rest from rfl, pob_nil]
    | cons k v tl =>
      have hfv : jsizeV v ≤ f := by
        have h1 := Nat.le_max_left (jsizeV v) (jsizeO tl)
        simp only [jsizeO] at hfuel
        omega
      have hft : jsizeO tl ≤ f := by
        have h1 := Nat.le_max_right (jsizeV v) (jsizeO tl)
        simp only [jsizeO] at hfuel
        omega
      obtain ⟨c0, cs0, hc0, hnd0⟩ := printObjectSep_shape tl
      have hbody : printObjectBody (.cons k v tl) ++ rest
          = '"' :: (escString k.data ++
              ('"' :: (':' :: ' ' :: (printValue v ++ (printObjectSep tl ++ rest))))) := by
        show (('"' :: (escString k.data ++ ['"'])) ++
          (':' :: ' ' :: (printValue v ++ printObjectSep tl))) ++ rest = _
        simp [List.append_assoc]
      rw [hbody, pob_cons f _ (printValue v ++ (printObjectSep tl ++ rest)) k.data v
        (printObjectSep tl ++ rest) tl rest
        (parseStringBody_esc k.data _)
        (parseValue_print v (printObjectSep tl ++ rest) f hfv
          (head_nondigit_of_shape _ rest hc0 hnd0))
        (parseObjectSep_print tl rest f hft)]

theorem parseObjectSep_print (o : JObject) (rest : List Char) (fuel : Nat)
    (hfuel : jsizeO o ≤ fuel) :
    parseObjectSep fuel (printObjectSep o ++ rest) = some (o, rest) := by
  cases fuel with
  | zero => exact absurd (le_trans (jsizeO_pos o) hfuel) (by omega)
  | succ f =>
    cases o with
    | nil => rw [show printObjectSep .nil ++ rest = '}' :: rest from rfl, posep_nil]
    | cons k v tl =>
      have hfv : jsizeV v ≤ f := by
        have h1 := Nat.le_max_left (jsizeV v) (jsizeO tl)
        simp only [jsizeO] at hfuel
        omega
      have hft : jsizeO tl ≤ f := by
        have h1 := Nat.le_max_right (jsizeV v) (jsizeO tl)
        simp only [jsizeO] at hfuel
        omega
      obtain ⟨c0, cs0, hc0, hnd0⟩ := printObjectSep_shape tl
      have hbody : printObjectSep (.cons k v tl) ++ rest
          = ',' :: ' ' :: ('"' :: (escString k.data ++
              ('"' :: (':' :: ' ' :: (printValue v ++ (printObjectSep tl ++ rest)))))) := by
        show (',' :: ' ' :: (('"' :: (escString k.data ++ ['"'])) ++
          (':' :: ' ' :: (printValue v ++ printObjectSep tl)))) ++ rest = _
        simp [List.append_assoc]
      rw [hbody, posep_cons f _ (printValue v ++ (printObjectSep tl ++ rest)) k.data v
        (printObjectSep tl ++ rest) tl rest
        (parseStringBody_esc k.data _)
        (parseValue_print v (printObjectSep tl ++ rest) f hfv
          (head_nondigit_of_shape _ rest hc0 hnd0))
        (parseObjectSep_print tl rest f hft)]

end

theorem printValue_length_pos (v : JValue) : 1 ≤ (printValue v).length := by
  obtain ⟨c, cs, h, _⟩ := printValue_shape v
  rw [h]
  simp

theorem printArraySep_length_pos (l : JArray) : 1 ≤ (printArraySep l).length := by
  obtain ⟨c, cs, h, _⟩ := printArraySep_shape l
  rw [h]
  simp

theorem printObjectSep_length_pos (o : JObject) : 1 ≤ (printObjectSep o).length := by
  obtain ⟨c, cs, h, _⟩ := printObjectSep_shape o
  rw [h]
  simp

mutual

theorem jsizeV_le_printValue (v : JValue) : jsizeV v ≤ (printValue v).length := by
  cases v with
  | null => decide
  | bool b => cases b <;> decide
  | num n => exact le_trans (by simp [jsizeV]) (printValue_length_pos (.num n))
  | str s => exact le_trans (by simp [jsizeV]) (printValue_length_pos (.str s))
  | arr l =>
    have h := jsizeA_le_printArrayBody l
    simp only [jsizeV, printValue, List.length_cons]
    omega
  | obj o =>
    have h := jsizeO_le_printObjectBody o
    simp only [jsizeV, printValue, List.length_cons]
    omega

theorem jsizeA_le_printArrayBody (l : JArray) : jsizeA l ≤ (printArrayBody l).length := by
  cases l with
  | nil => decide
  | cons v tl =>
    have h1 := jsizeV_le_printValue v
    have h2 := jsizeA_le_printArraySep tl
    have h3 := printValue_length_pos v
    have h4 := printArraySep_length_pos tl
    simp only [jsizeA, printArrayBody, List.length_append]
    omega

theorem jsizeA_le_printArraySep (l : JArray) : jsizeA l ≤ (printArraySep l).length := by
  cases l with
  | nil => decide
  | cons v tl =>
    have h1 := jsizeV_le_printValue v
    have h2 := jsizeA_le_printArraySep tl
    simp only [jsizeA, printArraySep, List.length_cons, List.length_append]
    omega

theorem jsizeO_le_printObjectBody (o : JObject) : jsizeO o ≤ (printObjectBody o).length := by
  cases o with
  | nil => decide
  | cons k v tl =>
    have h1 := jsizeV_le_printValue v
    have h2 := jsizeO_le_printObjectSep tl
    have h3 := printValue_length_pos v
    have h4 := printObjectSep_length_pos tl
    simp only [jsizeO, printObjectBody, List.length_append, List.length_cons]
    omega

theorem jsizeO_le_printObjectSep (o : JObject) : jsizeO o ≤ (printObjectSep o).length := by
  cases o with
  | nil => decide
  | cons k v tl =>
    have h1 := jsizeV_le_printValue v
    have h2 := jsizeO_le_printObjectSep tl
    simp only [jsizeO, printObjectSep, List.length_cons, List.length_append]
    omega

end

theorem jsonLoads_jsonDumps (v : JValue) : jsonLoads (jsonDumps v) = some v := by
  unfold jsonLoads
  have hdata : (jsonDumps v).data = printValue v := rfl
  rw [hdata]
  have h1 : parseValue ((printValue v).length + 1) (printValue v ++ []) = some (v, []) :=
    parseValue_print v [] _ (le_trans (jsizeV_le_printValue v) (by omega))
      (by intro c hc; cases hc)
  rw [List.append_nil] at h1
  rw [h1]

/-! ### Claims C6 and C8 -/

theorem foldlPickId_mem (t : List SearchResultRow) (a : SearchResultRow) :
    t.foldl (fun best r => if best.id < r.id then r else best) a ∈ a :: t := by
  induction t generalizing a with
  | nil => exact List.mem_singleton_self a
  | cons b t ih =>
    rw [List.foldl_cons]
    have hmem := ih (if a.id < b.id then b else a)
    rcases List.mem_cons.mp hmem with h | h
    · rw [h]
      split
      · exact List.mem_cons_of_mem a (List.mem_cons_self b t)
      · exact List.mem_cons_self a _
    · exact List.mem_cons_of_mem a (List.mem_cons_of_mem b h)

theorem pickMaxIdFirst_last (l₀ : List SearchResultRow) (x : SearchResultRow)
    (h : ∀ y ∈ l₀, y.id < x.id) : pickMaxIdFirst (l₀ ++ [x]) = some x := by
  cases l₀ with
  | nil => rfl
  | cons a t =>
    show some ((t ++ [x]).foldl (fun best r => if best.id < r.id then r else best) a) = some x
    congr 1
    rw [List.foldl_append]
    simp only [List.foldl_cons, List.foldl_nil]
    have hmem := foldlPickId_mem t a
    have hlt : (t.foldl (fun best r => if best.id < r.id then r else best) a).id < x.id :=
      h _ hmem
    rw [if_pos hlt]

/-- C6: round trip of the structured search response: recording a cycle and
reading the search response back returns the original value, because the
stored text is `jsonDumps v` and `jsonLoads` inverts it (the `wfKeys`
hypothesis marks the modeling boundary: only duplicate-key-free objects
represent Python dicts). -/
theorem searchResponse_roundtrip (st : Store) (q : String) (v : JValue)
    (w : List (String × String)) (a : String) (s : Option String) (now : Nat)
    (hwf : Store.WF st) (hkeys : JValue.wfKeys v = true) :
    get_cached_brave_response (cache_qa_data st q v w a s now none).fst q
      = BraveLookup.found v := by
  rw [cache_qa_data_no_fire st q v w a s now none (none_not_fires w.length)]
  obtain ⟨qr, hqr_mem, hqr_q, hqr_id⟩ := commitCycle_query_mem st q v w a s now
  have hsr := commitCycle_search_results st q v w a s now
  have hjoined : joinedSearchResults (commitCycle st q v w a s now) q
      = (st.search_results.filter (fun sr => (commitCycle st q v w a s now).queries.any
          (fun qr => sr.query_id == qr.id && qr.question == q)))
        ++ [⟨st.search_results.length + 1,
            (selectQueryId (insertOrIgnoreQuery st q now) q).getD 0, jsonDumps v⟩] := by
    unfold joinedSearchResults
    rw [hsr, List.filter_append]
    congr 1
    simp only [List.filter_cons, List.filter_nil]
    rw [if_pos (List.any_eq_true.mpr ⟨qr, hqr_mem, by simp [hqr_q, hqr_id]⟩)]
  have hmax : pickMaxIdFirst (joinedSearchResults (commitCycle st q v w a s now) q)
      = some ⟨st.search_results.length + 1,
          (selectQueryId (insertOrIgnoreQuery st q now) q).getD 0, jsonDumps v⟩ := by
    rw [hjoined]
    apply pickMaxIdFirst_last
    intro y hy
    have hy2 : y ∈ st.search_results := List.mem_of_mem_filter hy
    have hb := mem_id_bound (fun r => r.id) st.search_results hwf.2.1 y hy2
    dsimp only at hb
    show y.id < st.search_results.length + 1
    omega
  unfold get_cached_brave_response
  rw [hmax]
  simp only
  rw [jsonLoads_jsonDumps]

/-- Witness for C6 at a concrete nested value (object holding an array with
a negative number and a string, plus a null field). -/
theorem searchResponse_roundtrip_witness :
    get_cached_brave_response
      (cache_qa_data Store.init "Q"
        (JValue.obj (JObject.cons "a"
          (JValue.arr (JArray.cons (JValue.num (-12))
            (JArray.cons (JValue.str "x y") JArray.nil)))
          (JObject.cons "b" JValue.null JObject.nil)))
        [] "A" none 1 none).fst "Q"
      = BraveLookup.found
        (JValue.obj (JObject.cons "a"
          (JValue.arr (JArray.cons (JValue.num (-12))
            (JArray.cons (JValue.str "x y") JArray.nil)))
          (JObject.cons "b" JValue.null JObject.nil))) :=
  searchResponse_roundtrip Store.init "Q" _ [] "A" none 1 (by decide) (by decide)

theorem pickMaxIdFirst_eq_none (l : List SearchResultRow) :
    pickMaxIdFirst l = none ↔ l = [] := by
  cases l <;> simp [pickMaxIdFirst]

/-- C8: a stored record that fails to deserialize is surfaced as the
propagating `JSONDecodeError` (`decodeError`), which is distinct from the
absent/not-found result `None`; `absent` is returned exactly when no joined
record exists, so corruption is never reported as a cache miss. -/
theorem corrupt_record_distinct :
    (∀ st q sr, pickMaxIdFirst (joinedSearchResults st q) = some sr →
      jsonLoads sr.brave_response_json = none →
      get_cached_brave_response st q = BraveLookup.decodeError) ∧
    (∀ st q, get_cached_brave_response st q = BraveLookup.absent ↔
      joinedSearchResults st q = []) ∧
    BraveLookup.decodeError ≠ BraveLookup.absent := by
  refine ⟨?_, ?_, by decide⟩
  · intro st q sr hpick hload
    unfold get_cached_brave_response
    rw [hpick]
    simp only
    rw [hload]
  · intro st q
    unfold get_cached_brave_response
    rcases hp : pickMaxIdFirst (joinedSearchResults st q) with _ | sr
    · simp only
      exact ⟨fun _ => (pickMaxIdFirst_eq_none _).mp hp, fun _ => trivial⟩
    · simp only
      constructor
      · intro habs
        exfalso
        rcases hl : jsonLoads sr.brave_response_json with _ | v <;> rw [hl] at habs <;>
          cases habs
      · intro hnil
        rw [hnil] at hp
        cases hp

/-- Witness for C8: a store holding a record whose text is not JSON makes
the lookup surface `decodeError`, not the absent result. -/
theorem corrupt_record_distinct_witness :
    get_cached_brave_response (Store.mk [⟨1, "Q", 0⟩] [⟨1, 1, "oops"⟩] [] []) "Q"
      = BraveLookup.decodeError :=
  corrupt_record_distinct.1 (Store.mk [⟨1, "Q", 0⟩] [⟨1, 1, "oops"⟩] [] []) "Q"
    ⟨1, 1, "oops"⟩ (by decide) (by decide)
